import Mathlib

/-!
Verification of the file-tmux-file poller (package file_tmux_file): shallow
embedding of the input-queue state machine (input_queue.py), the snapshot
path computation (snapshot.py), and the directory reconciliation and stale
sweep (cleanup.py), together with proofs about the frozen specification
claims.  Python strings are modelled as lists of characters so that every
operation is a structural recursion that evaluates inside the kernel.
-/

set_option linter.unusedVariables false

/-- Python strings are modelled as lists of characters. -/
abbrev Str := List Char

/-- Convenience conversion from a Lean string literal to the model type. -/
def str (s : String) : Str := s.toList

/-- Decimal digit to character. -/
def digitChar : Nat → Char
  | 0 => '0' | 1 => '1' | 2 => '2' | 3 => '3' | 4 => '4'
  | 5 => '5' | 6 => '6' | 7 => '7' | 8 => '8' | 9 => '9'
  | _ => '?'

/-- Fuel-driven decimal rendering of a natural number (the fuel argument makes
the recursion structural so that it reduces in the kernel). -/
def natStrGo : Nat → Nat → Str
  | 0, _ => []
  | fuel + 1, n =>
    if n < 10 then [digitChar n] else natStrGo fuel (n / 10) ++ [digitChar (n % 10)]

/-- Decimal rendering of a natural number, as Python str(n) produces it. -/
def natStr (n : Nat) : Str := natStrGo (n + 1) n

/-- Python str() on an int: decimal digits, with a leading minus sign when
negative. -/
def intStr : Int → Str
  | .ofNat n => natStr n
  | .negSucc n => '-' :: natStr (n + 1)

/-- ASCII approximation of the character class matched by the regex \w used in
tmux.py sanitize_name (word characters; the claims under study never depend on
the classification of non-ASCII letters). -/
def isWordChar (c : Char) : Bool := c.isAlphanum || c = '_'

/-- Translation of tmux.py sanitize_name: re.sub replaces every character that
is not a word character, a dash or a dot with an underscore. -/
def sanitize_name (name : Str) : Str :=
  name.map fun c => if isWordChar c || c = '-' || c = '.' then c else '_'

/-- Modelled from the spec: get_window_dir_name is imported by cleanup.py from
the tmux module but is absent from src/src/file_tmux_file/tmux.py.  Spec 4.2
defines the desired directory name as NameSanitizer(windowIndex) + "-" +
NameSanitizer(windowName). -/
def get_window_dir_name (windowIndex : Int) (windowName : Str) : Str :=
  sanitize_name (intStr windowIndex) ++ '-' :: sanitize_name windowName

/-- Python content.split with separator two newline characters: leftmost,
non-overlapping occurrences separate the segments, and the list of segments is
never empty. -/
def splitNN : Str → List Str
  | [] => [[]]
  | '\n' :: '\n' :: rest => [] :: splitNN rest
  | c :: rest =>
    match splitNN rest with
    | [] => [[c]]
    | h :: t => (c :: h) :: t

/-- Python message.split with separator a single newline character. -/
def splitN : Str → List Str
  | [] => [[]]
  | '\n' :: rest => [] :: splitN rest
  | c :: rest =>
    match splitN rest with
    | [] => [[c]]
    | h :: t => (c :: h) :: t

/-- Python content.rstrip with argument a single newline: drop trailing newline
characters. -/
def rstripNL (s : Str) : Str := (s.reverse.dropWhile (fun c => c = '\n')).reverse

/-- Python content.endswith applied to a single newline character. -/
def endsWithNL (s : Str) : Bool :=
  match s.getLast? with
  | some '\n' => true
  | _ => false

/-- ASCII whitespace as recognised by Python str.strip (non-ASCII unicode
whitespace is not modelled; the claims never depend on it). -/
def isSpaceChar (c : Char) : Bool :=
  c = ' ' || c = '\t' || c = '\n' || c = '\r' || c = '\x0b' || c = '\x0c'

/-- Python msg.strip(): whitespace removed from both ends. -/
def pyStrip (s : Str) : Str :=
  ((s.dropWhile isSpaceChar).reverse.dropWhile isSpaceChar).reverse

/-- Keystroke operations emitted towards a pane: send_keys text, the Shift
Enter soft newline, and the submitting Enter (tmux.py). -/
inductive Key where
  | text (s : Str)
  | softNewline
  | enter
deriving DecidableEq, Repr

/-- Loop body of _send_message (input_queue.py lines 83-88): each line is sent
as text, and every interior line break becomes a soft newline keystroke. -/
def joinLines : List Str → List Key
  | [] => []
  | [l] => [Key.text l]
  | l :: rest => Key.text l :: Key.softNewline :: joinLines rest

/-- Translation of _send_message (input_queue.py lines 81-90): the message is
split on newlines, sent line by line with soft newlines in between, and
terminated by a submitting Enter when submit is set. -/
def send_message (message : Str) (submit : Bool) : List Key :=
  joinLines (splitN message) ++ if submit then [Key.enter] else []

/-- Loop over messages[:-1] in process_input_queue (input_queue.py lines
43-48): every segment that is non-blank after stripping is sent as a submitted
unit, and the pending content held for the pane is popped at its first use and
prepended (with a newline) to that first non-blank segment. -/
def sendComplete : List Str → Option Str → List Key
  | [], _ => []
  | msg :: rest, pending =>
    if pyStrip msg ≠ [] then
      match pending with
      | some p => send_message (p ++ '\n' :: msg) true ++ sendComplete rest none
      | none => send_message msg true ++ sendComplete rest none
    else sendComplete rest pending

/-- Result of one process_input_queue call on one pane: the keystrokes sent,
the pending entry for the pane afterwards (none when absent from
_pending_content), and the input file afterwards (none when the file does not
exist). -/
structure IQResult where
  keys : List Key
  pending : Option Str
  file : Option Str
deriving DecidableEq, Repr

/-- Translation of process_input_queue (input_queue.py lines 23-78) for one
pane.  The argument file is the input file (none when input_file.exists() is
false), pending is the _pending_content entry for the pane.  Branches that do
not rewrite the file leave its previous content in the result. -/
def process_input_queue (file : Option Str) (pending : Option Str) : IQResult :=
  match file with
  | none => ⟨[], pending, none⟩
  | some content =>
    if content = [] then
      match pending with
      | some p => ⟨send_message p true, none, some []⟩
      | none => ⟨[], none, some []⟩
    else
      let messages := splitNN content
      if 1 < messages.length then
        let keys := sendComplete messages.dropLast pending
        let remaining := messages.getLastD []
        if remaining ≠ [] then ⟨keys, some remaining, some remaining⟩
        else ⟨keys, none, some []⟩
      else
        if endsWithNL content then
          match pending with
          | some p => ⟨[], some (p ++ '\n' :: rstripNL content), some []⟩
          | none => ⟨[], some (rstripNL content), some []⟩
        else
          match pending with
          | some p =>
            if p ≠ [] ∧ content = p then ⟨send_message content true, none, some []⟩
            else ⟨[], some content, some content⟩
          | none => ⟨[], some content, some content⟩

/-- Number of submitting Enter keystrokes in a keystroke sequence. -/
def submitCount (keys : List Key) : Nat :=
  keys.countP fun k =>
    match k with
    | Key.enter => true
    | _ => false

/-- Association-list lookup with string keys (Python dict access). -/
def getA {α : Type} : List (Str × α) → Str → Option α
  | [], _ => none
  | (k, v) :: rest, key => if k = key then some v else getA rest key

/-- Association-list update with string keys (Python dict assignment: an
existing key keeps its position, a new key is appended). -/
def setA {α : Type} : List (Str × α) → Str → α → List (Str × α)
  | [], key, v => [(key, v)]
  | (k, w) :: rest, key, v =>
    if k = key then (key, v) :: rest else (k, w) :: setA rest key v

/-- Association-list removal with string keys (Python dict pop). -/
def delA {α : Type} : List (Str × α) → Str → List (Str × α)
  | [], _ => []
  | (k, w) :: rest, key => if k = key then rest else (k, w) :: delA rest key

/-- Effect of one process_input_queue call on the module-level _pending_content
dictionary: all dictionary operations inside the call touch only the key
pane_id, and their net effect is determined by the resulting pending value. -/
def processPanePending (pm : List (Str × Str)) (pid : Str) (file : Option Str) :
    List (Str × Str) :=
  match (process_input_queue file (getA pm pid)).pending with
  | some p => setA pm pid p
  | none => delA pm pid

/-- Effect of one poll cycle of main (main.py lines 124-133) on
_pending_content: process_input_queue runs once per live pane, in enumeration
order; panes carry their pane_id and the content of their input file.  No other
statement in the cycle touches _pending_content (clear_pending is never
called). -/
def pollCyclePending (pm : List (Str × Str)) (panes : List (Str × Option Str)) :
    List (Str × Str) :=
  panes.foldl (fun acc e => processPanePending acc e.1 e.2) pm

/-- Translation of clear_pending (input_queue.py lines 93-95); defined in the
source but never invoked by any module. -/
def clear_pending (pm : List (Str × Str)) (pid : Str) : List (Str × Str) :=
  delA pm pid

/-- Filesystem tree node: a regular file with content, or a directory with a
named list of children (a real directory never holds two children of the same
name; that invariant is the wellformedness predicate below). -/
inductive Node where
  | file (content : Str)
  | dir (children : List (Str × Node))

/-- Children of a directory node (a file has none). -/
def Node.childrenD : Node → List (Str × Node)
  | .file _ => []
  | .dir cs => cs

/-- Python Path.is_dir() on an existing node. -/
def Node.isDir : Node → Bool
  | .file _ => false
  | .dir _ => true

/-- Resolve a relative path below a node. -/
def Node.lookup : Node → List Str → Option Node
  | n, [] => some n
  | n, name :: rest =>
    match n with
    | .file _ => none
    | .dir cs =>
      match getA cs name with
      | some child => child.lookup rest
      | none => none

/-- Python Path.exists() for a path below the given root. -/
def Node.pathExists (n : Node) (p : List Str) : Bool := (n.lookup p).isSome

/-- Remove the entry at a path, when present; a missing path or a path through
a file leaves the tree unchanged, and the empty path names the root itself,
which cannot be removed from below. -/
def Node.deleteAt : Node → List Str → Node
  | n, [] => n
  | n, name :: rest =>
    match n with
    | .file c => .file c
    | .dir cs =>
      match rest with
      | [] => .dir (delA cs name)
      | _ :: _ =>
        match getA cs name with
        | some child => .dir (setA cs name (child.deleteAt rest))
        | none => .dir cs

/-- Place a node at a path, creating intermediate directories as needed
(descending through a file leaves the tree unchanged). -/
def Node.setAt : Node → List Str → Node → Node
  | _, [], m => m
  | n, name :: rest, m =>
    match n with
    | .file c => .file c
    | .dir cs =>
      let child :=
        match getA cs name with
        | some c => c
        | none => .dir []
      .dir (setA cs name (child.setAt rest m))

/-- Python Path.rename: the subtree at the old path moves to the new path.  A
missing source leaves the tree unchanged (the callers under study guard the
rename with an existence test). -/
def Node.renamePath (n : Node) (oldPath newPath : List Str) : Node :=
  match n.lookup oldPath with
  | some sub => (n.deleteAt oldPath).setAt newPath sub
  | none => n

/-- Errors surfaced by the filesystem primitives. -/
inductive FsError where
  | fileNotFound
deriving DecidableEq, Repr

/-- Translation of _remove_dir_recursive (cleanup.py lines 229-236).  When
path.is_dir() holds the source removes every child recursively and then calls
rmdir; with a single process mutating the tree this removes the whole subtree
and cannot fail, so it is rendered as deleteAt.  Otherwise the source calls
path.unlink(), which removes an existing file and raises FileNotFoundError when
the path does not exist (Path.is_dir() is false for an absent path, so an
absent path always reaches the unlink call). -/
def removeDirRecursive (root : Node) (p : List Str) : Except FsError Node :=
  match root.lookup p with
  | some (.dir _) => .ok (root.deleteAt p)
  | some (.file _) => .ok (root.deleteAt p)
  | none => .error .fileNotFound

/-- Keys of an association list are pairwise distinct. -/
def keysNodupA {α : Type} : List (Str × α) → Bool
  | [] => true
  | (k, _) :: rest => !(rest.any fun e => e.1 == k) && keysNodupA rest

/-- Wellformedness of a tree down to the given depth: every directory level
visited has pairwise distinct child names. -/
def Node.wfAtDepth : Nat → Node → Bool
  | 0, _ => true
  | _ + 1, .file _ => true
  | d + 1, .dir cs => keysNodupA cs && cs.all fun e => Node.wfAtDepth d e.2

/-- Wellformedness at the three directory levels the sweep walks: sessions,
windows and panes. -/
def Node.wf3 (n : Node) : Bool := n.wfAtDepth 3

/-- Live pane record.  Fields follow the Pane dataclass of tmux.py; the
window_id field is accessed throughout cleanup.py and main.py but is absent
from the dataclass in src.  Modelled from the spec: LiveEntity carries a
stable, opaque windowId that survives renames (spec section 3). -/
structure Pane where
  session : Str
  window_id : Str
  window_index : Int
  window_name : Str
  pane_index : Int
  pane_title : Str
  pane_id : Str

/-- Translation of get_pane_dir (snapshot.py lines 35-38), as a path relative
to the output directory: the window component is str(pane.window_index), the
bare numeric index. -/
def get_pane_dir (pane : Pane) : List Str :=
  [sanitize_name pane.session, intStr pane.window_index, intStr pane.pane_index]

/-- Per-session table window_id to directory name (windows.json content). -/
abbrev Mapping := List (Str × Str)

/-- In-memory session_mappings table: raw session name to Mapping. -/
abbrev SM := List (Str × Mapping)

/-- Result of get_or_create_window_dir: the filesystem after any rename, the
updated mapping, the returned directory name and changed flag. -/
structure GocwdResult where
  fs : Node
  mapping : Mapping
  dirName : Str
  changed : Bool

/-- Translation of get_or_create_window_dir (cleanup.py lines 25-57).  The
guarded _remove_dir_recursive call on an existing collision target removes the
subtree (deleteAt; see removeDirRecursive), after which the old directory is
renamed onto the target. -/
def get_or_create_window_dir (pane : Pane) (fs : Node) (mapping : Mapping) :
    GocwdResult :=
  let sessionDirName := sanitize_name pane.session
  let newDirName := get_window_dir_name pane.window_index pane.window_name
  match getA mapping pane.window_id with
  | some oldDirName =>
    if oldDirName = newDirName then
      ⟨fs, mapping, newDirName, false⟩
    else
      let oldPath := [sessionDirName, oldDirName]
      let newPath := [sessionDirName, newDirName]
      let fs1 :=
        if fs.pathExists oldPath then
          let fs0 :=
            if fs.pathExists newPath ∧ newPath ≠ oldPath then fs.deleteAt newPath else fs
          fs0.renamePath oldPath newPath
        else fs
      ⟨fs1, setA mapping pane.window_id newDirName, newDirName, true⟩
  | none => ⟨fs, setA mapping pane.window_id newDirName, newDirName, true⟩

/-- Sanitised session directory name of a pane. -/
def sanitizedSession (p : Pane) : Str := sanitize_name p.session

/-- Window directory name used by cleanup_stale for a live pane (cleanup.py
line 88): the session mapping entry for the window id, with the composed name
as fallback. -/
def windowDirNameFor (sm : SM) (p : Pane) : Str :=
  match getA ((getA sm p.session).getD []) p.window_id with
  | some nm => nm
  | none => get_window_dir_name p.window_index p.window_name

/-- Active session directory paths (cleanup.py lines 77-80). -/
def activeSessionDirs (panes : List Pane) : List (List Str) :=
  panes.map fun p => [sanitizedSession p]

/-- Active window directory paths (cleanup.py lines 86-91). -/
def activeWindowDirs (sm : SM) (panes : List Pane) : List (List Str) :=
  panes.map fun p => [sanitizedSession p, windowDirNameFor sm p]

/-- Active pane directory paths (cleanup.py lines 93-94). -/
def activePaneDirs (sm : SM) (panes : List Pane) : List (List Str) :=
  panes.map fun p => [sanitizedSession p, windowDirNameFor sm p, intStr p.pane_index]

/-- Window ids of the live windows of a session (cleanup.py lines 82-84). -/
def activeWindowIds (panes : List Pane) (s : Str) : List Str :=
  (panes.filter fun p => p.session = s).map fun p => p.window_id

/-- Stale window ids removed from every session mapping (cleanup.py lines
96-101): an entry survives exactly when its window id is live in that
session. -/
def pruneMappings (panes : List Pane) (sm : SM) : SM :=
  sm.map fun e => (e.1, e.2.filter fun w => w.1 ∈ activeWindowIds panes e.1)

/-- Name starts with a dot. -/
def dotName : Str → Bool
  | '.' :: _ => true
  | _ => false

/-- The three lists of stale directory paths collected by the sweep. -/
structure StaleDirs where
  sessions : List (List Str)
  windows : List (List Str)
  panes : List (List Str)
deriving Repr

/-- Stale collection walk of cleanup_stale (cleanup.py lines 103-130).  The
source appends to three accumulator lists while walking the root children in
nested loops; the lists never interact, so each is collected here by its own
comprehension over the same walk: non-directory entries are skipped at every
level, dot-named entries are skipped at the root, a non-active session is
recorded whole, and only under live sessions are windows inspected, and only
under active windows panes. -/
def collectStale (root : Node) (aS aW aP : List (List Str)) : StaleDirs :=
  let cs := root.childrenD
  let staleSessions := cs.filterMap fun e =>
    if e.2.isDir ∧ ¬ dotName e.1 ∧ [e.1] ∉ aS then some [e.1] else none
  let liveSessions := cs.filter fun e => e.2.isDir ∧ ¬ dotName e.1 ∧ [e.1] ∈ aS
  let staleWindows := liveSessions.flatMap fun se =>
    se.2.childrenD.filterMap fun we =>
      if we.2.isDir ∧ [se.1, we.1] ∉ aW then some [se.1, we.1] else none
  let stalePanes := liveSessions.flatMap fun se =>
    (se.2.childrenD.filter fun we => we.2.isDir ∧ [se.1, we.1] ∈ aW).flatMap fun we =>
      we.2.childrenD.filterMap fun pe =>
        if pe.2.isDir ∧ [se.1, we.1, pe.1] ∉ aP then some [se.1, we.1, pe.1] else none
  ⟨staleSessions, staleWindows, stalePanes⟩

/-- Deletion pass of cleanup_stale (cleanup.py lines 132-140): panes first,
then windows, then sessions.  Every collected path exists when it is removed,
so _remove_dir_recursive acts as deleteAt (see removeDirRecursive). -/
def removeStale (fs : Node) (sd : StaleDirs) : Node :=
  let f1 := sd.panes.foldl Node.deleteAt fs
  let f2 := sd.windows.foldl Node.deleteAt f1
  sd.sessions.foldl Node.deleteAt f2

/-- Session directories containing nothing besides windows.json (cleanup.py
lines 142-149): dot-named and non-directory root entries are skipped. -/
def collectEmptySessions (fs : Node) : List (List Str) :=
  fs.childrenD.filterMap fun e =>
    let nonJson := e.2.childrenD.filter fun c : Str × Node => c.1 ≠ str "windows.json"
    if e.2.isDir ∧ ¬ dotName e.1 ∧ nonJson.isEmpty then some [e.1] else none

/-- Final pass of cleanup_stale (cleanup.py lines 142-150): remove every
session directory that holds only the mapping file. -/
def removeEmptySessions (fs : Node) : Node :=
  (collectEmptySessions fs).foldl Node.deleteAt fs

/-- Translation of cleanup_stale (cleanup.py lines 60-150): build the active
path sets from the live panes and the current mappings, prune stale window ids
from every mapping, collect and remove stale pane, window and session
directories, and finally remove session directories left holding only
windows.json.  The early return for a missing output root is not modelled:
main creates the root before the loop starts (main.py line 77). -/
def cleanup_stale (fs : Node) (panes : List Pane) (sm : SM) : Node × SM :=
  let aS := activeSessionDirs panes
  let aW := activeWindowDirs sm panes
  let aP := activePaneDirs sm panes
  let sm1 := pruneMappings panes sm
  let sd := collectStale fs aS aW aP
  let fs1 := removeStale fs sd
  let fs2 := removeEmptySessions fs1
  (fs2, sm1)

/-- Python dict grouping of panes by session (main.py lines 103-107):
insertion-ordered keys, panes appended in enumeration order. -/
def insertGroup : List (Str × List Pane) → Pane → List (Str × List Pane)
  | [], p => [(p.session, [p])]
  | (s, ps) :: rest, p =>
    if s = p.session then (s, ps ++ [p]) :: rest else (s, ps) :: insertGroup rest p

/-- Grouping of the live panes by session name. -/
def groupBySession (panes : List Pane) : List (Str × List Pane) :=
  panes.foldl insertGroup []

/-- One iteration of the per-pane loop of main (main.py lines 124-128):
get_or_create_window_dir on the running tree and mapping, recording the
changed flag. -/
def gocwdStep (acc : Node × Mapping × List Bool) (p : Pane) :
    Node × Mapping × List Bool :=
  let r := get_or_create_window_dir p acc.1 acc.2.1
  (r.fs, r.mapping, acc.2.2 ++ [r.changed])

/-- One session's pane loop of main (main.py lines 124-128): fold
get_or_create_window_dir over the session's panes, recording every changed
flag. -/
def reconcileSession (fs : Node) (m : Mapping) (spanes : List Pane) :
    Node × Mapping × List Bool :=
  spanes.foldl gocwdStep (fs, m, [])

/-- Result of one reconciliation pass (the parts of a poll cycle the claims
about cleanup.py concern). -/
structure CycleResult where
  fs : Node
  sm : SM
  changed : List Bool

/-- Reconciliation portion of one poll cycle of main (main.py lines 102-138):
group panes by session, run get_or_create_window_dir for every pane with its
session's mapping (a session absent from the in-memory table starts from the
empty mapping, the state load_window_mapping yields when no windows.json file
exists; a table loaded from disk is represented by the initial sm argument),
store the updated mapping back, then run cleanup_stale.  Snapshot writing and
input draining are external to reconciliation (spec section 2) and are the
subject of separate claims. -/
def sessionStep (acc : Node × SM × List Bool) (g : Str × List Pane) :
    Node × SM × List Bool :=
  let m := (getA acc.2.1 g.1).getD []
  let r := reconcileSession acc.1 m g.2
  (r.1, setA acc.2.1 g.1 r.2.1, acc.2.2 ++ r.2.2)

/-- Reconciliation pass of one poll cycle, as described on sessionStep above:
the per-session pane loops followed by cleanup_stale. -/
def reconcile (fs : Node) (panes : List Pane) (sm : SM) : CycleResult :=
  let groups := groupBySession panes
  let step := groups.foldl sessionStep (fs, sm, [])
  let cleaned := cleanup_stale step.1 panes step.2.1
  ⟨cleaned.1, cleaned.2, step.2.2⟩

/-- Consistency of one live enumeration: two panes of the same window of the
same session report the same window index and name (tmux guarantees this for
any single list-panes call). -/
def ConsistentPanes (panes : List Pane) : Prop :=
  ∀ p ∈ panes, ∀ q ∈ panes, p.session = q.session → p.window_id = q.window_id →
    p.window_index = q.window_index ∧ p.window_name = q.window_name

/-- Composed desired window directory name of a pane. -/
def gwdnP (p : Pane) : Str := get_window_dir_name p.window_index p.window_name

/-- Tails of the paths in L whose head is s. -/
def tailsFor (s : Str) (L : List (List Str)) : List (List Str) :=
  L.filterMap fun p =>
    match p with
    | h :: t => if h = s then some t else none
    | [] => none

/-- A tree is clean for the given active sets when every non-dot directory
child at the root is an active session whose directory children are active
windows whose directory children are active panes. -/
def CleanTree (fs : Node) (aS aW aP : List (List Str)) : Prop :=
  ∀ e ∈ fs.childrenD, e.2.isDir = true → dotName e.1 = false →
    [e.1] ∈ aS ∧
    ∀ w ∈ e.2.childrenD, w.2.isDir = true →
      [e.1, w.1] ∈ aW ∧
      ∀ q ∈ w.2.childrenD, q.2.isDir = true → [e.1, w.1, q.1] ∈ aP

/-- No non-dot directory child at the root holds only windows.json. -/
def NoEmptySessions (fs : Node) : Prop :=
  ∀ e ∈ fs.childrenD, e.2.isDir = true → dotName e.1 = false →
    (e.2.childrenD.filter fun c : Str × Node => c.1 ≠ str "windows.json") ≠ []

/-- Concrete pane fixture used by witness theorems: session work, window @1 at
index 1 named vim, pane 0. -/
def paneW : Pane := ⟨str "work", str "@1", 1, str "vim", 0, str "t", str "%1"⟩

/-- Concrete tree fixture for the rename-collision witness: the session holds
the mapped window directory oldwin and a colliding directory at the target
name 1-vim. -/
def fsW : Node :=
  .dir [(str "work", .dir [(str "oldwin", .dir [(str "0", .dir [])]),
    (str "1-vim", .dir [(str "9", .dir [])])])]

/-- Concrete tree fixture for the sweep witnesses: a lock file, a live session
with stale entries, and a dead session. -/
def fsW2 : Node :=
  .dir [(str ".lock", .file (str "123")),
    (str "work", .dir [
      (str "oldwin", .dir [(str "0", .dir [(str "content.txt", .file (str "c"))])]),
      (str "1-vim", .dir [(str "9", .dir [])]),
      (str "windows.json", .file (str "x")),
      (str "gone", .dir [(str "0", .dir [])])]),
    (str "dead", .dir [(str "3-sh", .dir [])])]

theorem process_input_queue_some_none (content : Str) :
    process_input_queue (some content) none =
      if content = [] then ⟨[], none, some []⟩
      else
        if 1 < (splitNN content).length then
          if (splitNN content).getLastD [] ≠ [] then
            ⟨sendComplete (splitNN content).dropLast none,
              some ((splitNN content).getLastD []), some ((splitNN content).getLastD [])⟩
          else ⟨sendComplete (splitNN content).dropLast none, none, some []⟩
        else
          if endsWithNL content then ⟨[], some (rstripNL content), some []⟩
          else ⟨[], some content, some content⟩ := rfl

theorem process_input_queue_some_some (content p : Str) :
    process_input_queue (some content) (some p) =
      if content = [] then ⟨send_message p true, none, some []⟩
      else
        if 1 < (splitNN content).length then
          if (splitNN content).getLastD [] ≠ [] then
            ⟨sendComplete (splitNN content).dropLast (some p),
              some ((splitNN content).getLastD []), some ((splitNN content).getLastD [])⟩
          else ⟨sendComplete (splitNN content).dropLast (some p), none, some []⟩
        else
          if endsWithNL content then ⟨[], some (p ++ '\n' :: rstripNL content), some []⟩
          else
            if p ≠ [] ∧ content = p then ⟨send_message content true, none, some []⟩
            else ⟨[], some content, some content⟩ := rfl

theorem submitCount_append (a b : List Key) :
    submitCount (a ++ b) = submitCount a + submitCount b := by
  simp [submitCount, List.countP_append]

theorem submitCount_joinLines (L : List Str) : submitCount (joinLines L) = 0 := by
  induction L with
  | nil => rfl
  | cons l rest ih =>
    cases rest with
    | nil => rfl
    | cons m t =>
      simp only [joinLines] at ih ⊢
      simp [submitCount, List.countP_cons] at ih ⊢
      exact ih

theorem submitCount_send_message_true (m : Str) :
    submitCount (send_message m true) = 1 := by
  unfold send_message
  rw [submitCount_append, submitCount_joinLines]
  rfl

/-- C1: with no pending prefix held, input file content hello, newline, world,
newline, newline emits exactly one submitted unit, namely the text hello, one
soft line-break keystroke, the text world and one submitting Enter; afterwards
the input file is empty and no pending prefix is held for the pane. -/
theorem input_boundary_law_hello_world :
    process_input_queue (some (str "hello\nworld\n\n")) none =
      ⟨[Key.text (str "hello"), Key.softNewline, Key.text (str "world"), Key.enter],
        none, some []⟩ ∧
    submitCount (process_input_queue (some (str "hello\nworld\n\n")) none).keys = 1 :=
  ⟨rfl, rfl⟩

/-- C9: when the input file does not exist process_input_queue emits nothing
and keeps any pending prefix unchanged, whereas an existing but empty input
file flushes a held pending prefix as a submission. -/
theorem missing_input_file_is_noop (pending : Option Str) (p : Str) :
    process_input_queue none pending = ⟨[], pending, none⟩ ∧
    process_input_queue (some []) (some p) = ⟨send_message p true, none, some []⟩ :=
  ⟨rfl, rfl⟩

/-- C5: content with no blank-line boundary and no trailing newline is buffered
on the first cycle without any keystroke; when the next cycle sees the content
unchanged and byte-identical to the held pending prefix, it is submitted
immediately and the input file is emptied - exactly one submission across the
two cycles, on the second. -/
theorem stability_fallback_two_cycles (c : Str)
    (hne : c ≠ [])
    (hnb : (splitNN c).length = 1)
    (hnl : endsWithNL c = false) :
    (process_input_queue (some c) none).keys = [] ∧
    (process_input_queue (some c) none).pending = some c ∧
    (process_input_queue (some c) none).file = some c ∧
    (process_input_queue (some c) (some c)).keys = send_message c true ∧
    submitCount (process_input_queue (some c) (some c)).keys = 1 ∧
    (process_input_queue (some c) (some c)).pending = none ∧
    (process_input_queue (some c) (some c)).file = some [] := by
  have hlt : ¬ 1 < (splitNN c).length := by omega
  have hnl' : ¬ (endsWithNL c = true) := by simp [hnl]
  have h1 : process_input_queue (some c) none = ⟨[], some c, some c⟩ := by
    rw [process_input_queue_some_none, if_neg hne, if_neg hlt, if_neg hnl']
  have h2 : process_input_queue (some c) (some c) = ⟨send_message c true, none, some []⟩ := by
    rw [process_input_queue_some_some, if_neg hne, if_neg hlt, if_neg hnl',
      if_pos ⟨hne, rfl⟩]
  rw [h1, h2]
  exact ⟨rfl, rfl, rfl, rfl, submitCount_send_message_true c, rfl, rfl⟩

theorem stability_fallback_two_cycles_witness :
    str "partial" ≠ [] ∧
    (process_input_queue (some (str "partial")) none).keys = [] ∧
    (process_input_queue (some (str "partial")) none).pending = some (str "partial") ∧
    (process_input_queue (some (str "partial")) none).file = some (str "partial") ∧
    (process_input_queue (some (str "partial")) (some (str "partial"))).keys =
      send_message (str "partial") true ∧
    submitCount (process_input_queue (some (str "partial")) (some (str "partial"))).keys = 1 ∧
    (process_input_queue (some (str "partial")) (some (str "partial"))).pending = none ∧
    (process_input_queue (some (str "partial")) (some (str "partial"))).file = some [] :=
  ⟨by decide, stability_fallback_two_cycles (str "partial") (by decide) (by decide) (by decide)⟩

/-- C8 counterexample: the input file content consisting of a single blank line
contains a blank-line boundary, yet with pending prefix x held the call emits
no keystroke at all and clears the pending entry - the buffered text is
silently discarded, not transmitted. -/
theorem pending_discarded_on_blank_only_content :
    (process_input_queue (some (str "\n\n")) (some (str "x"))).keys = [] ∧
    (process_input_queue (some (str "\n\n")) (some (str "x"))).pending = none :=
  ⟨rfl, rfl⟩

theorem sendComplete_first_nonblank (bs : List Str) (fb : Str) (rest : List Str) (p : Str)
    (hblank : ∀ b ∈ bs, pyStrip b = []) (hfb : pyStrip fb ≠ []) :
    sendComplete (bs ++ fb :: rest) (some p) =
      send_message (p ++ '\n' :: fb) true ++ sendComplete rest none := by
  induction bs with
  | nil => simp [sendComplete, if_pos hfb]
  | cons b bs ih =>
    have hb : pyStrip b = [] := hblank b (List.mem_cons_self b bs)
    have : ¬ pyStrip b ≠ [] := by simp [hb]
    simp only [List.cons_append, sendComplete, if_neg this]
    exact ih fun x hx => hblank x (List.mem_cons_of_mem b hx)

/-- C8 amended: when process_input_queue finds a blank-line boundary while a
pending prefix is held and some segment before the final boundary is non-blank
after stripping, the pending prefix is prepended (with a newline) to the first
such non-blank segment, the combined unit is transmitted as a submission, and
the pending entry is cleared, holding afterwards only the trailing remainder
of the new content; when every segment before the boundaries is blank, the
pending prefix is instead discarded without transmission (see the
counterexample). -/
theorem pending_prepended_to_first_nonblank_segment (c p : Str)
    (bs : List Str) (fb : Str) (rest : List Str)
    (hsplit : (splitNN c).dropLast = bs ++ fb :: rest)
    (hblank : ∀ b ∈ bs, pyStrip b = [])
    (hfb : pyStrip fb ≠ [])
    (hlen : 1 < (splitNN c).length) :
    (process_input_queue (some c) (some p)).keys =
      send_message (p ++ '\n' :: fb) true ++ sendComplete rest none ∧
    (process_input_queue (some c) (some p)).pending =
      (if (splitNN c).getLastD [] = [] then none else some ((splitNN c).getLastD [])) := by
  have hne : c ≠ [] := by
    intro h
    subst h
    simp [splitNN] at hlen
  rw [process_input_queue_some_some, if_neg hne, if_pos hlen, hsplit,
    sendComplete_first_nonblank bs fb rest p hblank hfb]
  by_cases hr : (splitNN c).getLastD [] = []
  · rw [if_neg (not_not_intro hr), if_pos hr]
    exact ⟨rfl, rfl⟩
  · rw [if_pos hr, if_neg hr]
    exact ⟨rfl, rfl⟩

theorem pending_prepended_witness :
    (splitNN (str "hello\n\n")).dropLast = [] ++ str "hello" :: [] ∧
    (∀ b ∈ ([] : List Str), pyStrip b = []) ∧
    pyStrip (str "hello") ≠ [] ∧
    1 < (splitNN (str "hello\n\n")).length ∧
    (process_input_queue (some (str "hello\n\n")) (some (str "x"))).keys =
      send_message (str "x" ++ '\n' :: str "hello") true ++ sendComplete [] none ∧
    (process_input_queue (some (str "hello\n\n")) (some (str "x"))).pending =
      (if (splitNN (str "hello\n\n")).getLastD [] = [] then none
        else some ((splitNN (str "hello\n\n")).getLastD [])) := by
  refine ⟨by decide, by simp, by decide, by decide, ?_⟩
  exact pending_prepended_to_first_nonblank_segment (str "hello\n\n") (str "x")
    [] (str "hello") [] (by decide) (by simp) (by decide) (by decide)

/-- C4: the poll cycle never purges the pending entry of a pane that is absent
from the cycle's live enumeration - with pending text x held for pane %5 and a
cycle whose only live pane is %7, the entry for %5 survives the cycle intact
(clear_pending exists in the source but is never invoked). -/
theorem stale_pane_pending_survives_cycle :
    pollCyclePending [(str "%5", str "x")] [(str "%7", some [])] = [(str "%5", str "x")] ∧
    str "%5" ∉ [(str "%7", (some [] : Option Str))].map Prod.fst :=
  ⟨rfl, by decide⟩

/-- C3: the recursive delete primitive raises FileNotFoundError on a path that
is absent at the moment of removal, instead of treating the absence as
success: Path.is_dir() is false for an absent path, so the code reaches
Path.unlink(), which raises. -/
theorem remove_dir_recursive_errors_on_absent_path (root : Node) (p : List Str)
    (h : root.lookup p = none) :
    removeDirRecursive root p = .error .fileNotFound := by
  unfold removeDirRecursive
  rw [h]

theorem remove_dir_recursive_errors_on_absent_path_witness :
    Node.lookup (Node.dir []) [str "gone"] = none ∧
    removeDirRecursive (Node.dir []) [str "gone"] = .error .fileNotFound :=
  ⟨rfl, remove_dir_recursive_errors_on_absent_path (Node.dir []) [str "gone"] rfl⟩

/-- C2: get_pane_dir composes the window path component from the bare numeric
window index even when the session mapping holds a directory name for the
window - for a pane of window index 1 named vim with mapping entry 1-vim, the
snapshot path is work/1/0, not the mapped work/1-vim/0. -/
theorem snapshot_path_ignores_window_mapping :
    get_pane_dir ⟨str "work", str "@1", 1, str "vim", 0, str "t", str "%1"⟩ =
      [str "work", str "1", str "0"] ∧
    getA [(str "@1", str "1-vim")] (str "@1") = some (str "1-vim") ∧
    get_window_dir_name 1 (str "vim") = str "1-vim" ∧
    get_pane_dir ⟨str "work", str "@1", 1, str "vim", 0, str "t", str "%1"⟩ ≠
      [str "work", str "1-vim", str "0"] :=
  ⟨by decide, rfl, by decide, by decide⟩

theorem getA_setA_self {α : Type} (l : List (Str × α)) (k : Str) (v : α) :
    getA (setA l k v) k = some v := by
  induction l with
  | nil => simp [setA, getA]
  | cons e rest ih =>
    obtain ⟨k1, v1⟩ := e
    by_cases h : k1 = k
    · simp [setA, getA, h]
    · simp [setA, getA, h, ih]

theorem getA_setA_ne {α : Type} (l : List (Str × α)) (k k' : Str) (v : α)
    (h : k ≠ k') : getA (setA l k v) k' = getA l k' := by
  induction l with
  | nil => simp [setA, getA, h]
  | cons e rest ih =>
    obtain ⟨k1, v1⟩ := e
    by_cases h1 : k1 = k
    · subst h1
      simp [setA, getA, h]
    · simp only [setA, if_neg h1, getA]
      by_cases h2 : k1 = k'
      · simp [h2]
      · simp [h2, ih]

theorem getA_delA_ne {α : Type} (l : List (Str × α)) (k k' : Str)
    (h : k ≠ k') : getA (delA l k) k' = getA l k' := by
  induction l with
  | nil => simp [delA]
  | cons e rest ih =>
    obtain ⟨k1, v1⟩ := e
    by_cases h1 : k1 = k
    · subst h1
      simp [delA, getA, h]
    · simp only [delA, if_neg h1, getA]
      by_cases h2 : k1 = k'
      · simp [h2]
      · simp [h2, ih]

theorem keysNodupA_tail {α : Type} (e : Str × α) (rest : List (Str × α))
    (h : keysNodupA (e :: rest) = true) : keysNodupA rest = true := by
  obtain ⟨k, v⟩ := e
  simp only [keysNodupA, Bool.and_eq_true] at h
  exact h.2

theorem keysNodupA_head {α : Type} (e : Str × α) (rest : List (Str × α))
    (h : keysNodupA (e :: rest) = true) : ∀ x ∈ rest, x.1 ≠ e.1 := by
  obtain ⟨k, v⟩ := e
  intro x hx
  simp only [keysNodupA, Bool.and_eq_true, Bool.not_eq_true', List.any_eq_false] at h
  have := h.1 x hx
  simpa using this

theorem setA_setA {α : Type} (l : List (Str × α)) (k : Str) (a b : α) :
    setA (setA l k a) k b = setA l k b := by
  induction l with
  | nil => simp [setA]
  | cons e rest ih =>
    obtain ⟨k1, v1⟩ := e
    by_cases h1 : k1 = k
    · subst h1
      have h2 : setA ((k1, v1) :: rest) k1 a = (k1, a) :: rest := by simp [setA]
      have h3 : setA ((k1, v1) :: rest) k1 b = (k1, b) :: rest := by simp [setA]
      rw [h2, h3]
      simp [setA]
    · simp [setA, h1, ih]

theorem getA_eq_none_of_forall {α : Type} (l : List (Str × α)) (k : Str)
    (h : ∀ e ∈ l, e.1 ≠ k) : getA l k = none := by
  induction l with
  | nil => rfl
  | cons e rest ih =>
    obtain ⟨k1, v1⟩ := e
    have h1 : k1 ≠ k := h (k1, v1) (by simp)
    simp only [getA, if_neg h1]
    exact ih fun x hx => h x (List.mem_cons_of_mem _ hx)

theorem getA_delA_self {α : Type} (l : List (Str × α)) (k : Str)
    (h : keysNodupA l = true) : getA (delA l k) k = none := by
  induction l with
  | nil => simp [delA, getA]
  | cons e rest ih =>
    obtain ⟨k1, v1⟩ := e
    by_cases h1 : k1 = k
    · subst h1
      simp only [delA, if_pos rfl]
      exact getA_eq_none_of_forall rest k1 fun x hx => keysNodupA_head (k1, v1) rest h x hx
    · simp only [delA, if_neg h1, getA, if_neg h1]
      exact ih (keysNodupA_tail (k1, v1) rest h)

theorem setA_self {α : Type} (l : List (Str × α)) (k : Str) (v : α)
    (h : getA l k = some v) : setA l k v = l := by
  induction l with
  | nil => simp [getA] at h
  | cons e rest ih =>
    obtain ⟨k1, v1⟩ := e
    by_cases h1 : k1 = k
    · subst h1
      simp only [getA, if_pos rfl] at h
      injection h with h
      simp [setA, h]
    · simp only [getA, if_neg h1] at h
      simp [setA, h1, ih h]

theorem getA_mem {α : Type} (l : List (Str × α)) (k : Str) (v : α)
    (h : getA l k = some v) : (k, v) ∈ l := by
  induction l with
  | nil => simp [getA] at h
  | cons e rest ih =>
    obtain ⟨k1, v1⟩ := e
    by_cases h1 : k1 = k
    · subst h1
      simp only [getA, if_pos rfl] at h
      injection h with h
      simp [h]
    · simp only [getA, if_neg h1] at h
      exact List.mem_cons_of_mem _ (ih h)

theorem mem_getA {α : Type} (l : List (Str × α)) (k : Str) (v : α)
    (hn : keysNodupA l = true) (h : (k, v) ∈ l) : getA l k = some v := by
  induction l with
  | nil => simp at h
  | cons e rest ih =>
    obtain ⟨k1, v1⟩ := e
    rcases List.mem_cons.mp h with h1 | h1
    · simp only [Prod.mk.injEq] at h1
      obtain ⟨rfl, rfl⟩ := h1
      simp [getA]
    · have hne : k1 ≠ k := by
        intro hk
        subst hk
        exact keysNodupA_head (k1, v1) rest hn (k1, v) h1 rfl
      simp only [getA, if_neg hne]
      exact ih (keysNodupA_tail (k1, v1) rest hn) h1

theorem mem_delA {α : Type} (l : List (Str × α)) (k : Str) (e : Str × α)
    (h : e ∈ delA l k) : e ∈ l := by
  induction l with
  | nil => simp [delA] at h
  | cons f rest ih =>
    obtain ⟨k1, v1⟩ := f
    by_cases h1 : k1 = k
    · subst h1
      simp only [delA, if_pos rfl] at h
      exact List.mem_cons_of_mem _ h
    · simp only [delA, if_neg h1, List.mem_cons] at h
      rcases h with h2 | h2
      · simp [h2]
      · exact List.mem_cons_of_mem _ (ih h2)

theorem mem_setA {α : Type} (l : List (Str × α)) (k : Str) (v : α) (e : Str × α)
    (h : e ∈ setA l k v) : e ∈ l ∨ e = (k, v) := by
  induction l with
  | nil =>
    simp only [setA, List.mem_singleton] at h
    exact Or.inr h
  | cons f rest ih =>
    obtain ⟨k1, v1⟩ := f
    by_cases h1 : k1 = k
    · subst h1
      have hs : setA ((k1, v1) :: rest) k1 v = (k1, v) :: rest := by
        simp [setA]
      rw [hs, List.mem_cons] at h
      rcases h with h2 | h2
      · exact Or.inr h2
      · exact Or.inl (List.mem_cons_of_mem _ h2)
    · simp only [setA, if_neg h1, List.mem_cons] at h
      rcases h with h2 | h2
      · exact Or.inl (by simp [h2])
      · rcases ih h2 with h3 | h3
        · exact Or.inl (List.mem_cons_of_mem _ h3)
        · exact Or.inr h3

theorem keysNodupA_delA {α : Type} (l : List (Str × α)) (k : Str)
    (h : keysNodupA l = true) : keysNodupA (delA l k) = true := by
  induction l with
  | nil => simpa [delA] using h
  | cons e rest ih =>
    obtain ⟨k1, v1⟩ := e
    by_cases h1 : k1 = k
    · subst h1
      simp only [delA, if_pos rfl]
      exact keysNodupA_tail (k1, v1) rest h
    · simp only [delA, if_neg h1, keysNodupA, Bool.and_eq_true, Bool.not_eq_true',
        List.any_eq_false]
      constructor
      · intro x hx
        have hx2 : x ∈ rest := mem_delA rest k x hx
        have := keysNodupA_head (k1, v1) rest h x hx2
        simpa using this
      · exact ih (keysNodupA_tail (k1, v1) rest h)

theorem keysNodupA_setA {α : Type} (l : List (Str × α)) (k : Str) (v : α)
    (h : keysNodupA l = true) : keysNodupA (setA l k v) = true := by
  induction l with
  | nil => simp [setA, keysNodupA]
  | cons e rest ih =>
    obtain ⟨k1, v1⟩ := e
    by_cases h1 : k1 = k
    · subst h1
      have hs : setA ((k1, v1) :: rest) k1 v = (k1, v) :: rest := by
        simp [setA]
      rw [hs]
      simp only [keysNodupA, Bool.and_eq_true, Bool.not_eq_true', List.any_eq_false]
      refine ⟨fun x hx => by simpa using keysNodupA_head (k1, v1) rest h x hx, ?_⟩
      exact keysNodupA_tail (k1, v1) rest h
    · simp only [setA, if_neg h1, keysNodupA, Bool.and_eq_true, Bool.not_eq_true',
        List.any_eq_false]
      constructor
      · intro x hx
        rcases mem_setA rest k v x hx with h2 | h2
        · have := keysNodupA_head (k1, v1) rest h x h2
          simpa using this
        · subst h2
          simpa using fun h3 => h1 h3.symm
      · exact ih (keysNodupA_tail (k1, v1) rest h)

theorem lookup_dir_cons (cs : List (Str × Node)) (n : Str) (rest : List Str) :
    Node.lookup (.dir cs) (n :: rest) =
      match getA cs n with
      | some child => child.lookup rest
      | none => none := rfl

theorem lookup_dir_cons_some (cs : List (Str × Node)) (n : Str) (rest : List Str)
    (c : Node) (h : getA cs n = some c) :
    Node.lookup (.dir cs) (n :: rest) = c.lookup rest := by
  rw [lookup_dir_cons, h]

theorem deleteAt_dir_one (cs : List (Str × Node)) (n : Str) :
    Node.deleteAt (.dir cs) [n] = .dir (delA cs n) := rfl

theorem deleteAt_dir_two (cs : List (Str × Node)) (n r : Str) (rs : List Str) :
    Node.deleteAt (.dir cs) (n :: r :: rs) =
      match getA cs n with
      | some child => .dir (setA cs n (child.deleteAt (r :: rs)))
      | none => .dir cs := rfl

theorem setAt_dir_cons (cs : List (Str × Node)) (n : Str) (rest : List Str) (m : Node) :
    Node.setAt (.dir cs) (n :: rest) m =
      .dir (setA cs n
        ((match getA cs n with
          | some c => c
          | none => .dir []).setAt rest m)) := rfl

theorem wfAtDepth_keysNodup (d : Nat) (cs : List (Str × Node))
    (h : Node.wfAtDepth (d + 1) (.dir cs) = true) : keysNodupA cs = true := by
  simp only [Node.wfAtDepth, Bool.and_eq_true] at h
  exact h.1

theorem wfAtDepth_mem_child (d : Nat) (cs : List (Str × Node)) (e : Str × Node)
    (h : Node.wfAtDepth (d + 1) (.dir cs) = true) (hm : e ∈ cs) :
    Node.wfAtDepth d e.2 = true := by
  simp only [Node.wfAtDepth, Bool.and_eq_true, List.all_eq_true] at h
  exact h.2 e hm

/-- C6: when get_or_create_window_dir reconciles a rename (the window id is
mapped to a different name), the old directory exists and a directory already
exists at the target name, the collider is deleted and the old directory is
renamed onto the target: afterwards the target path holds exactly the renamed
window's previous subtree, the old path is gone, the mapping entry holds the
new name, and the call reports changed. -/
theorem rename_collision_target_replaced (pane : Pane) (fs : Node) (m : Mapping)
    (old : Str)
    (hwf : Node.wf3 fs = true)
    (hm : getA m pane.window_id = some old)
    (hne : old ≠ get_window_dir_name pane.window_index pane.window_name)
    (hold : fs.pathExists [sanitize_name pane.session, old] = true)
    (hnew : fs.pathExists
      [sanitize_name pane.session,
        get_window_dir_name pane.window_index pane.window_name] = true) :
    (get_or_create_window_dir pane fs m).fs.lookup
        [sanitize_name pane.session,
          get_window_dir_name pane.window_index pane.window_name] =
      fs.lookup [sanitize_name pane.session, old] ∧
    (get_or_create_window_dir pane fs m).fs.lookup
      [sanitize_name pane.session, old] = none ∧
    getA (get_or_create_window_dir pane fs m).mapping pane.window_id =
      some (get_window_dir_name pane.window_index pane.window_name) ∧
    (get_or_create_window_dir pane fs m).changed = true := by
  set s := sanitize_name pane.session with hs
  set nw := get_window_dir_name pane.window_index pane.window_name with hnw
  have hne' : nw ≠ old := fun h => hne h.symm
  cases fs with
  | file cf => simp [Node.pathExists, Node.lookup] at hold
  | dir cs =>
    rcases hcs : getA cs s with _ | c
    · rw [Node.pathExists, lookup_dir_cons, hcs] at hold
      simp at hold
    cases c with
    | file cf =>
      rw [Node.pathExists, lookup_dir_cons_some cs s [old] _ hcs] at hold
      simp [Node.lookup] at hold
    | dir ds =>
      rw [Node.pathExists, lookup_dir_cons_some cs s [old] _ hcs,
        lookup_dir_cons] at hold
      rw [Node.pathExists, lookup_dir_cons_some cs s [nw] _ hcs,
        lookup_dir_cons] at hnew
      rcases hdo : getA ds old with _ | subOld
      · rw [hdo] at hold
        simp at hold
      rcases hdn : getA ds nw with _ | subNew
      · rw [hdn] at hnew
        simp at hnew
      have hnds : keysNodupA ds = true := by
        have hmem : (s, Node.dir ds) ∈ cs := getA_mem cs s _ hcs
        have h2 := wfAtDepth_mem_child 2 cs (s, Node.dir ds) hwf hmem
        exact wfAtDepth_keysNodup 1 ds h2
      have hlne : ([s, nw] : List Str) ≠ [s, old] := by
        simp only [ne_eq, List.cons.injEq, true_and, and_true]
        exact fun h => hne h.symm
      have holdB : (Node.dir cs).pathExists [s, old] = true := by
        rw [Node.pathExists, lookup_dir_cons_some cs s [old] _ hcs,
          lookup_dir_cons, hdo]
        rfl
      have hnewB : (Node.dir cs).pathExists [s, nw] = true := by
        rw [Node.pathExists, lookup_dir_cons_some cs s [nw] _ hcs,
          lookup_dir_cons, hdn]
        rfl
      have hstep : get_or_create_window_dir pane (.dir cs) m =
          ⟨((Node.dir cs).deleteAt [s, nw]).renamePath [s, old] [s, nw],
            setA m pane.window_id nw, nw, true⟩ := by
        simp only [get_or_create_window_dir, hm, ← hs, ← hnw]
        rw [if_neg hne, if_pos holdB, if_pos ⟨hnewB, hlne⟩]
      have hdel : (Node.dir cs).deleteAt [s, nw] =
          .dir (setA cs s (.dir (delA ds nw))) := by
        simp only [deleteAt_dir_two, hcs]
        rfl
      have hlook0 : (Node.dir (setA cs s (.dir (delA ds nw)))).lookup [s, old] =
          some subOld := by
        rw [lookup_dir_cons_some _ s [old] _ (getA_setA_self cs s _),
          lookup_dir_cons, getA_delA_ne ds nw old hne', hdo]
        rfl
      have hdel2 : (Node.dir (setA cs s (.dir (delA ds nw)))).deleteAt [s, old] =
          .dir (setA cs s (.dir (delA (delA ds nw) old))) := by
        simp only [deleteAt_dir_two, getA_setA_self, setA_setA]
        rfl
      have hset : (Node.dir (setA cs s (.dir (delA (delA ds nw) old)))).setAt
            [s, nw] subOld =
          .dir (setA cs s (.dir (setA (delA (delA ds nw) old) nw subOld))) := by
        simp only [setAt_dir_cons, getA_setA_self, setA_setA]
        rfl
      have hfs : (get_or_create_window_dir pane (.dir cs) m).fs =
          .dir (setA cs s (.dir (setA (delA (delA ds nw) old) nw subOld))) := by
        rw [hstep]
        show ((Node.dir cs).deleteAt [s, nw]).renamePath [s, old] [s, nw] = _
        rw [hdel]
        unfold Node.renamePath
        simp only [hlook0]
        rw [hdel2, hset]
      refine ⟨?_, ?_, ?_, ?_⟩
      · rw [hfs, lookup_dir_cons_some _ s [nw] _ (getA_setA_self cs s _),
          lookup_dir_cons, getA_setA_self,
          lookup_dir_cons_some cs s [old] _ hcs, lookup_dir_cons, hdo]
      · rw [hfs, lookup_dir_cons_some _ s [old] _ (getA_setA_self cs s _),
          lookup_dir_cons, getA_setA_ne _ nw old _ hne',
          getA_delA_self _ old (keysNodupA_delA ds nw hnds)]
      · rw [hstep]
        exact getA_setA_self m pane.window_id nw
      · rw [hstep]

theorem rename_collision_target_replaced_witness :
    (get_or_create_window_dir paneW fsW [(str "@1", str "oldwin")]).fs.lookup
        [sanitize_name paneW.session,
          get_window_dir_name paneW.window_index paneW.window_name] =
      fsW.lookup [sanitize_name paneW.session, str "oldwin"] ∧
    (get_or_create_window_dir paneW fsW [(str "@1", str "oldwin")]).fs.lookup
      [sanitize_name paneW.session, str "oldwin"] = none ∧
    getA (get_or_create_window_dir paneW fsW [(str "@1", str "oldwin")]).mapping
        paneW.window_id =
      some (get_window_dir_name paneW.window_index paneW.window_name) ∧
    (get_or_create_window_dir paneW fsW [(str "@1", str "oldwin")]).changed = true :=
  rename_collision_target_replaced paneW fsW [(str "@1", str "oldwin")] (str "oldwin")
    (by decide) rfl (by decide) (by decide) (by decide)

theorem ite_some_eq {α : Type} {c : Prop} [Decidable c] {a p : α}
    (h : (if c then some a else none) = some p) : c ∧ p = a := by
  by_cases hc : c
  · rw [if_pos hc] at h
    exact ⟨hc, (Option.some_inj.mp h).symm⟩
  · rw [if_neg hc] at h
    exact absurd h (by simp)

theorem getA_childrenD_deleteAt_ne (fs : Node) (h : Str) (t : List Str) (n : Str)
    (hne : h ≠ n) :
    getA (fs.deleteAt (h :: t)).childrenD n = getA fs.childrenD n := by
  cases fs with
  | file c => rfl
  | dir cs =>
    cases t with
    | nil =>
      show getA (delA cs h) n = getA cs n
      exact getA_delA_ne cs h n hne
    | cons r rs =>
      show getA (Node.deleteAt (.dir cs) (h :: r :: rs)).childrenD n = getA cs n
      rw [deleteAt_dir_two]
      rcases hg : getA cs h with _ | child
      · rfl
      · show getA (setA cs h (child.deleteAt (r :: rs))) n = getA cs n
        exact getA_setA_ne cs h n _ hne

theorem getA_childrenD_foldl_deleteAt (ps : List (List Str)) (fs : Node) (n : Str)
    (hps : ∀ p ∈ ps, ∃ h t, p = h :: t ∧ h ≠ n) :
    getA ((ps.foldl Node.deleteAt fs)).childrenD n = getA fs.childrenD n := by
  induction ps generalizing fs with
  | nil => rfl
  | cons p rest ih =>
    obtain ⟨h, t, rfl, hne⟩ := hps p (by simp)
    rw [List.foldl_cons, ih _ fun q hq => hps q (List.mem_cons_of_mem _ hq)]
    exact getA_childrenD_deleteAt_ne fs h t n hne

theorem collectStale_sessions_heads (root : Node) (aS aW aP : List (List Str))
    (p : List Str) (hp : p ∈ (collectStale root aS aW aP).sessions) :
    ∃ h t, p = h :: t ∧ dotName h = false := by
  simp only [collectStale, List.mem_filterMap] at hp
  obtain ⟨e, _, he⟩ := hp
  obtain ⟨⟨_, hdot, _⟩, rfl⟩ := ite_some_eq he
  exact ⟨e.1, [], rfl, by simpa using hdot⟩

theorem collectStale_windows_heads (root : Node) (aS aW aP : List (List Str))
    (p : List Str) (hp : p ∈ (collectStale root aS aW aP).windows) :
    ∃ h t, p = h :: t ∧ dotName h = false := by
  simp only [collectStale, List.mem_flatMap, List.mem_filter, List.mem_filterMap] at hp
  obtain ⟨se, ⟨_, hcond⟩, we, _, he⟩ := hp
  obtain ⟨_, rfl⟩ := ite_some_eq he
  refine ⟨se.1, [we.1], rfl, ?_⟩
  have : ¬ dotName se.1 = true := by
    simp only [decide_eq_true_eq] at hcond
    exact hcond.2.1
  simpa using this

theorem collectStale_panes_heads (root : Node) (aS aW aP : List (List Str))
    (p : List Str) (hp : p ∈ (collectStale root aS aW aP).panes) :
    ∃ h t, p = h :: t ∧ dotName h = false := by
  simp only [collectStale, List.mem_flatMap, List.mem_filter, List.mem_filterMap] at hp
  obtain ⟨se, ⟨_, hcond⟩, we, _, pe, _, he⟩ := hp
  obtain ⟨_, rfl⟩ := ite_some_eq he
  refine ⟨se.1, [we.1, pe.1], rfl, ?_⟩
  have : ¬ dotName se.1 = true := by
    simp only [decide_eq_true_eq] at hcond
    exact hcond.2.1
  simpa using this

theorem collectEmptySessions_heads (fs : Node) (p : List Str)
    (hp : p ∈ collectEmptySessions fs) :
    ∃ h t, p = h :: t ∧ dotName h = false := by
  simp only [collectEmptySessions, List.mem_filterMap] at hp
  obtain ⟨e, _, he⟩ := hp
  obtain ⟨⟨_, hdot, _⟩, rfl⟩ := ite_some_eq he
  exact ⟨e.1, [], rfl, by simpa using hdot⟩

/-- C10: the sweep never touches dot-prefixed root entries - after
cleanup_stale, every root child whose name starts with a dot (the .lock file
in particular) is exactly what it was before, at every sweep phase. -/
theorem cleanup_preserves_dot_entries (fs : Node) (panes : List Pane) (sm : SM)
    (n : Str) (hdot : dotName n = true) :
    getA (cleanup_stale fs panes sm).1.childrenD n = getA fs.childrenD n := by
  have hne : ∀ h : Str, dotName h = false → h ≠ n := by
    intro h hh he
    rw [he, hdot] at hh
    cases hh
  show getA (removeEmptySessions (removeStale fs
    (collectStale fs (activeSessionDirs panes) (activeWindowDirs sm panes)
      (activePaneDirs sm panes)))).childrenD n = getA fs.childrenD n
  rw [removeEmptySessions,
    getA_childrenD_foldl_deleteAt _ _ n fun p hp => by
      obtain ⟨h, t, rfl, hh⟩ := collectEmptySessions_heads _ p hp
      exact ⟨h, t, rfl, hne h hh⟩]
  rw [removeStale,
    getA_childrenD_foldl_deleteAt _ _ n fun p hp => by
      obtain ⟨h, t, rfl, hh⟩ := collectStale_sessions_heads _ _ _ _ p hp
      exact ⟨h, t, rfl, hne h hh⟩,
    getA_childrenD_foldl_deleteAt _ _ n fun p hp => by
      obtain ⟨h, t, rfl, hh⟩ := collectStale_windows_heads _ _ _ _ p hp
      exact ⟨h, t, rfl, hne h hh⟩,
    getA_childrenD_foldl_deleteAt _ _ n fun p hp => by
      obtain ⟨h, t, rfl, hh⟩ := collectStale_panes_heads _ _ _ _ p hp
      exact ⟨h, t, rfl, hne h hh⟩]

theorem cleanup_preserves_dot_entries_witness :
    dotName (str ".lock") = true ∧
    getA (cleanup_stale fsW2 [paneW]
        [(str "work", [(str "@1", str "1-vim")])]).1.childrenD (str ".lock") =
      getA fsW2.childrenD (str ".lock") :=
  ⟨by decide, cleanup_preserves_dot_entries fsW2 [paneW]
    [(str "work", [(str "@1", str "1-vim")])] (str ".lock") (by decide)⟩

theorem mem_delA_iff {α : Type} (l : List (Str × α)) (k : Str) (e : Str × α)
    (hn : keysNodupA l = true) : e ∈ delA l k ↔ e ∈ l ∧ e.1 ≠ k := by
  induction l with
  | nil => simp [delA]
  | cons f rest ih =>
    obtain ⟨k1, v1⟩ := f
    by_cases h1 : k1 = k
    · subst h1
      simp only [delA, if_pos rfl, List.mem_cons]
      constructor
      · intro h
        refine ⟨Or.inr h, ?_⟩
        exact keysNodupA_head (k1, v1) rest hn e h
      · rintro ⟨h | h, hne⟩
        · exact absurd (congrArg Prod.fst h) (by simpa using hne)
        · exact h
    · simp only [delA, if_neg h1, List.mem_cons,
        ih (keysNodupA_tail (k1, v1) rest hn)]
      constructor
      · rintro (h | ⟨h, hne⟩)
        · subst h
          exact ⟨Or.inl rfl, h1⟩
        · exact ⟨Or.inr h, hne⟩
      · rintro ⟨h | h, hne⟩
        · exact Or.inl h
        · exact Or.inr ⟨h, hne⟩

theorem getA_none_forall {α : Type} (l : List (Str × α)) (k : Str)
    (h : getA l k = none) : ∀ e ∈ l, e.1 ≠ k := by
  induction l with
  | nil => simp
  | cons f rest ih =>
    obtain ⟨k1, v1⟩ := f
    by_cases h1 : k1 = k
    · simp [getA, h1] at h
    · simp only [getA, if_neg h1] at h
      intro e he
      rcases List.mem_cons.mp he with h2 | h2
      · subst h2
        exact h1
      · exact ih h e h2

theorem setA_eq_map {α : Type} (cs : List (Str × α)) (h : Str) (v : α) (c : α)
    (hn : keysNodupA cs = true) (hg : getA cs h = some c) :
    setA cs h v = cs.map fun e => if e.1 = h then (h, v) else e := by
  induction cs with
  | nil => simp [getA] at hg
  | cons f rest ih =>
    obtain ⟨k1, v1⟩ := f
    by_cases h1 : k1 = h
    · subst h1
      have hr : ∀ e ∈ rest, e.1 ≠ k1 := keysNodupA_head (k1, v1) rest hn
      have hs : setA ((k1, v1) :: rest) k1 v = (k1, v) :: rest := by simp [setA]
      have hmap : ∀ (l : List (Str × α)), (∀ e ∈ l, e.1 ≠ k1) →
          l.map (fun e => if e.1 = k1 then (k1, v) else e) = l := by
        intro l
        induction l with
        | nil => intro _; rfl
        | cons x xs ihx =>
          intro hall
          simp only [List.map_cons]
          rw [if_neg (hall x (by simp)),
            ihx fun e he => hall e (List.mem_cons_of_mem _ he)]
      rw [hs, List.map_cons, if_pos rfl, hmap rest hr]
    · simp only [getA, if_neg h1] at hg
      simp only [setA, if_neg h1, List.map_cons, if_neg h1]
      congr 1
      exact ih (keysNodupA_tail (k1, v1) rest hn) hg

theorem keysNodupA_map_fst {α β : Type} (l : List (Str × α))
    (f : Str × α → Str × β) (hf : ∀ e, (f e).1 = e.1)
    (hn : keysNodupA l = true) : keysNodupA (l.map f) = true := by
  induction l with
  | nil => simp [keysNodupA]
  | cons e rest ih =>
    obtain ⟨k1, v1⟩ := e
    simp only [List.map_cons]
    rcases hfe : f (k1, v1) with ⟨k2, v2⟩
    have hk2 : k2 = k1 := by
      have := hf (k1, v1)
      rw [hfe] at this
      exact this
    subst hk2
    simp only [keysNodupA, Bool.and_eq_true, Bool.not_eq_true', List.any_eq_false]
    constructor
    · intro x hx
      obtain ⟨y, hy, hxy⟩ := List.mem_map.mp hx
      have : x.1 = y.1 := by rw [← hxy, hf y]
      rw [this]
      simpa using keysNodupA_head (k2, v1) rest hn y hy
    · exact ih (keysNodupA_tail (k2, v1) rest hn)

theorem getA_filter_key {α : Type} (l : List (Str × α)) (k : Str) (v : α)
    (q : Str → Bool) (hg : getA l k = some v) (hq : q k = true) :
    getA (l.filter fun e => q e.1) k = some v := by
  induction l with
  | nil => simp [getA] at hg
  | cons f rest ih =>
    obtain ⟨k1, v1⟩ := f
    by_cases h1 : k1 = k
    · subst h1
      have hg2 : v1 = v := by simpa [getA] using hg
      subst hg2
      simp [List.filter_cons, hq, getA]
    · simp only [getA, if_neg h1] at hg
      by_cases h2 : q k1 = true
      · simp [List.filter_cons, h2, getA, if_neg h1, ih hg]
      · simp only [List.filter_cons]
        rw [if_neg (by simpa using h2)]
        exact ih hg

theorem isDir_deleteAt (fs : Node) (p : List Str) :
    (fs.deleteAt p).isDir = fs.isDir := by
  cases fs with
  | file c =>
    cases p with
    | nil => rfl
    | cons h t => rfl
  | dir cs =>
    cases p with
    | nil => rfl
    | cons h t =>
      cases t with
      | nil => rfl
      | cons r rs =>
        show (Node.deleteAt (.dir cs) (h :: r :: rs)).isDir = true
        rw [deleteAt_dir_two]
        rcases getA cs h with _ | child
        · rfl
        · rfl

theorem isDir_foldl_deleteAt (L : List (List Str)) (fs : Node) :
    ((L.foldl Node.deleteAt fs)).isDir = fs.isDir := by
  induction L generalizing fs with
  | nil => rfl
  | cons p rest ih => rw [List.foldl_cons, ih, isDir_deleteAt]

theorem mem_children_foldl_deleteAt_single (L : List (List Str))
    (cs : List (Str × Node)) (hn : keysNodupA cs = true)
    (hL : ∀ p ∈ L, ∃ n, p = [n]) (e : Str × Node) :
    e ∈ ((L.foldl Node.deleteAt (.dir cs)).childrenD) ↔ e ∈ cs ∧ [e.1] ∉ L := by
  induction L generalizing cs with
  | nil => simp [Node.childrenD]
  | cons p rest ih =>
    obtain ⟨n, rfl⟩ := hL p (by simp)
    rw [List.foldl_cons, deleteAt_dir_one]
    rw [ih (delA cs n) (keysNodupA_delA cs n hn)
      (fun q hq => hL q (List.mem_cons_of_mem _ hq)) ]
    rw [mem_delA_iff cs n e hn]
    constructor
    · rintro ⟨⟨he, hne⟩, hnr⟩
      refine ⟨he, ?_⟩
      intro hmem
      rcases List.mem_cons.mp hmem with h2 | h2
      · exact hne (by simpa using h2)
      · exact hnr h2
    · rintro ⟨he, hnm⟩
      refine ⟨⟨he, fun hne => hnm (by simp [hne])⟩, fun h2 => hnm (List.mem_cons_of_mem _ h2)⟩

theorem tailsFor_nil (s : Str) : tailsFor s [] = [] := rfl

theorem tailsFor_cons (s : Str) (h : Str) (t : List Str) (L : List (List Str)) :
    tailsFor s ((h :: t) :: L) =
      if h = s then t :: tailsFor s L else tailsFor s L := by
  simp only [tailsFor, List.filterMap_cons]
  by_cases he : h = s
  · simp [he]
  · simp [he]

theorem tailsFor_cons_nil (s : Str) (L : List (List Str)) :
    tailsFor s ([] :: L) = tailsFor s L := by
  simp [tailsFor, List.filterMap_cons]

theorem tailsFor_append (s : Str) (A B : List (List Str)) :
    tailsFor s (A ++ B) = tailsFor s A ++ tailsFor s B := by
  simp [tailsFor, List.filterMap_append]

theorem mem_tailsFor (s : Str) (t : List Str) (L : List (List Str))
    (h : (s :: t) ∈ L) : t ∈ tailsFor s L := by
  induction L with
  | nil => simp at h
  | cons p rest ih =>
    rcases List.mem_cons.mp h with h2 | h2
    · subst h2
      rw [tailsFor_cons, if_pos rfl]
      simp
    · cases p with
      | nil =>
        rw [tailsFor_cons_nil]
        exact ih h2
      | cons ph pt =>
        rw [tailsFor_cons]
        by_cases he : ph = s
        · rw [if_pos he]
          exact List.mem_cons_of_mem _ (ih h2)
        · rw [if_neg he]
          exact ih h2

theorem mem_of_mem_tailsFor (s : Str) (t : List Str) (L : List (List Str))
    (h : t ∈ tailsFor s L) : (s :: t) ∈ L := by
  simp only [tailsFor, List.mem_filterMap] at h
  obtain ⟨p, hp, he⟩ := h
  cases p with
  | nil => simp at he
  | cons ph pt =>
    rw [show (match ph :: pt with
        | h :: t => if h = s then some t else none
        | [] => none) = (if ph = s then some pt else none) from rfl] at he
    by_cases h2 : ph = s
    · subst h2
      rw [if_pos rfl] at he
      injection he with he
      subst he
      exact hp
    · rw [if_neg h2] at he
      cases he

theorem map_self_of {α : Type} (l : List α) (f : α → α) (h : ∀ e ∈ l, f e = e) :
    l.map f = l := by
  induction l with
  | nil => rfl
  | cons x xs ih =>
    simp only [List.map_cons]
    rw [h x (by simp), ih fun e he => h e (List.mem_cons_of_mem _ he)]

theorem map_congr_mem {α β : Type} (l : List α) (f g : α → β)
    (h : ∀ e ∈ l, f e = g e) : l.map f = l.map g := by
  induction l with
  | nil => rfl
  | cons x xs ih =>
    simp only [List.map_cons]
    rw [h x (by simp), ih fun e he => h e (List.mem_cons_of_mem _ he)]

theorem foldl_deleteAt_deep (L : List (List Str)) (cs : List (Str × Node))
    (hn : keysNodupA cs = true)
    (hL : ∀ p ∈ L, ∃ h t, p = h :: t ∧ t ≠ []) :
    L.foldl Node.deleteAt (.dir cs) =
      .dir (cs.map fun e => (e.1, (tailsFor e.1 L).foldl Node.deleteAt e.2)) := by
  induction L generalizing cs with
  | nil =>
    simp only [List.foldl_nil]
    congr 1
    exact (map_self_of cs _ fun e he => by simp [tailsFor_nil]).symm
  | cons p L' ih =>
    obtain ⟨h, t, rfl, ht⟩ := hL p (by simp)
    obtain ⟨r, rs, rfl⟩ : ∃ r rs, t = r :: rs := by
      cases t with
      | nil => exact absurd rfl ht
      | cons r rs => exact ⟨r, rs, rfl⟩
    rw [List.foldl_cons, deleteAt_dir_two]
    rcases hg : getA cs h with _ | child
    · have hall : ∀ e ∈ cs, e.1 ≠ h := getA_none_forall cs h hg
      show List.foldl Node.deleteAt (Node.dir cs) L' = _
      rw [ih cs hn fun q hq => hL q (List.mem_cons_of_mem _ hq)]
      congr 1
      apply map_congr_mem
      intro e he
      rw [tailsFor_cons, if_neg fun hh => hall e he hh.symm]
    · have hmap := setA_eq_map cs h (child.deleteAt (r :: rs)) child hn hg
      have hfst : ∀ e : Str × Node,
          ((fun e => if e.1 = h then (h, child.deleteAt (r :: rs)) else e) e).1 = e.1 := by
        intro e
        by_cases he : e.1 = h
        · simp [he]
        · simp [he]
      show List.foldl Node.deleteAt
        (Node.dir (setA cs h (child.deleteAt (r :: rs)))) L' = _
      rw [hmap, ih _ (keysNodupA_map_fst cs _ hfst hn)
        fun q hq => hL q (List.mem_cons_of_mem _ hq)]
      congr 1
      rw [List.map_map]
      apply map_congr_mem
      intro e he
      simp only [Function.comp]
      by_cases hh : e.1 = h
      · have hch : e.2 = child := by
          have h1 := mem_getA cs e.1 e.2 hn (by simpa using he)
          rw [hh, hg] at h1
          injection h1 with h2
          exact h2.symm
        rw [if_pos hh]
        rw [tailsFor_cons, if_pos hh.symm, List.foldl_cons, ← hch, ← hh]
      · rw [if_neg hh]
        rw [tailsFor_cons, if_neg fun h2 => hh h2.symm]

theorem wfAtDepth_dir_empty (k : Nat) : Node.wfAtDepth k (.dir []) = true := by
  cases k with
  | zero => rfl
  | succ k => simp [Node.wfAtDepth, keysNodupA]

theorem wfAtDepth_build (d : Nat) (cs : List (Str × Node))
    (h1 : keysNodupA cs = true) (h2 : ∀ e ∈ cs, Node.wfAtDepth d e.2 = true) :
    Node.wfAtDepth (d + 1) (.dir cs) = true := by
  simp only [Node.wfAtDepth, Bool.and_eq_true, List.all_eq_true]
  exact ⟨h1, h2⟩

theorem wfAtDepth_deleteAt (path : List Str) (fs : Node) (k : Nat)
    (h : Node.wfAtDepth k fs = true) :
    Node.wfAtDepth k (fs.deleteAt path) = true := by
  induction path generalizing fs k with
  | nil => exact h
  | cons n rest ih =>
    cases fs with
    | file c => exact h
    | dir cs =>
      cases k with
      | zero => rfl
      | succ k =>
        cases rest with
        | nil =>
          rw [deleteAt_dir_one]
          refine wfAtDepth_build k _ (keysNodupA_delA cs n (wfAtDepth_keysNodup k cs h)) ?_
          intro e he
          exact wfAtDepth_mem_child k cs e h (mem_delA cs n e he)
        | cons r rs =>
          rw [deleteAt_dir_two]
          rcases hg : getA cs n with _ | child
          · exact h
          · refine wfAtDepth_build k _
              (keysNodupA_setA cs n _ (wfAtDepth_keysNodup k cs h)) ?_
            intro e he
            rcases mem_setA cs n _ e he with h2 | h2
            · exact wfAtDepth_mem_child k cs e h h2
            · subst h2
              exact ih child k (wfAtDepth_mem_child k cs (n, child) h (getA_mem cs n child hg))

theorem wf_lookup (path : List Str) (fs sub : Node) (k j : Nat)
    (hk : path.length + j = k)
    (hwf : Node.wfAtDepth k fs = true) (hl : fs.lookup path = some sub) :
    Node.wfAtDepth j sub = true := by
  induction path generalizing fs k with
  | nil =>
    have : fs = sub := by
      simpa [Node.lookup] using hl
    subst this
    simp only [List.length_nil, Nat.zero_add] at hk
    subst hk
    exact hwf
  | cons n rest ih =>
    cases fs with
    | file c => simp [Node.lookup] at hl
    | dir cs =>
      rw [lookup_dir_cons] at hl
      rcases hg : getA cs n with _ | child
      · rw [hg] at hl
        cases hl
      · rw [hg] at hl
        cases k with
        | zero => simp [List.length_cons] at hk
        | succ k =>
          have hc := wfAtDepth_mem_child k cs (n, child) hwf (getA_mem cs n child hg)
          exact ih child k (by simp only [List.length_cons] at hk; omega) hc hl

theorem wfAtDepth_setAt (path : List Str) (fs sub : Node) (k j : Nat)
    (hk : path.length + j = k)
    (hwf : Node.wfAtDepth k fs = true) (hsub : Node.wfAtDepth j sub = true) :
    Node.wfAtDepth k (fs.setAt path sub) = true := by
  induction path generalizing fs k with
  | nil =>
    simp only [List.length_nil, Nat.zero_add] at hk
    subst hk
    exact hsub
  | cons n rest ih =>
    cases fs with
    | file c => exact hwf
    | dir cs =>
      cases k with
      | zero => simp [List.length_cons] at hk
      | succ k =>
        rw [setAt_dir_cons]
        refine wfAtDepth_build k _
          (keysNodupA_setA cs n _ (wfAtDepth_keysNodup k cs hwf)) ?_
        intro e he
        rcases mem_setA cs n _ e he with h2 | h2
        · exact wfAtDepth_mem_child k cs e hwf h2
        · subst h2
          have hkk : rest.length + j = k := by
            simp only [List.length_cons] at hk
            omega
          rcases hg : getA cs n with _ | child
          · exact ih (.dir []) k hkk (wfAtDepth_dir_empty k)
          · exact ih child k hkk
              (wfAtDepth_mem_child k cs (n, child) hwf (getA_mem cs n child hg))

theorem gocwd_fs_wf3 (p : Pane) (fs : Node) (m : Mapping)
    (h : Node.wf3 fs = true) :
    Node.wf3 (get_or_create_window_dir p fs m).fs = true := by
  rcases hg : getA m p.window_id with _ | old
  · simp only [get_or_create_window_dir, hg]
    exact h
  · simp only [get_or_create_window_dir, hg]
    by_cases he : old = get_window_dir_name p.window_index p.window_name
    · rw [if_pos he]
      exact h
    · rw [if_neg he]
      by_cases hp : fs.pathExists
          [sanitize_name p.session, old] = true
      · rw [if_pos hp]
        set newPath : List Str :=
          [sanitize_name p.session, get_window_dir_name p.window_index p.window_name]
        set oldPath : List Str := [sanitize_name p.session, old]
        have hfs0 : Node.wf3 (if fs.pathExists newPath ∧ newPath ≠ oldPath
            then fs.deleteAt newPath else fs) = true := by
          by_cases hc : fs.pathExists newPath ∧ newPath ≠ oldPath
          · rw [if_pos hc]
            exact wfAtDepth_deleteAt newPath fs 3 h
          · rw [if_neg hc]
            exact h
        set fs0 := if fs.pathExists newPath ∧ newPath ≠ oldPath
          then fs.deleteAt newPath else fs
        show Node.wf3 (fs0.renamePath oldPath newPath) = true
        unfold Node.renamePath
        rcases hl : fs0.lookup oldPath with _ | sub
        · exact hfs0
        · have hsub : Node.wfAtDepth 1 sub = true :=
            wf_lookup oldPath fs0 sub 3 1 rfl hfs0 hl
          exact wfAtDepth_setAt newPath (fs0.deleteAt oldPath) sub 3 1 rfl
            (wfAtDepth_deleteAt oldPath fs0 3 hfs0) hsub
      · rw [if_neg hp]
        exact h

theorem gocwd_mapping_self (p : Pane) (fs : Node) (m : Mapping) :
    getA (get_or_create_window_dir p fs m).mapping p.window_id = some (gwdnP p) := by
  rcases hg : getA m p.window_id with _ | old
  · simp only [get_or_create_window_dir, hg, gwdnP]
    exact getA_setA_self m p.window_id _
  · simp only [get_or_create_window_dir, hg, gwdnP]
    by_cases he : old = get_window_dir_name p.window_index p.window_name
    · rw [if_pos he]
      rw [hg, he]
    · rw [if_neg he]
      exact getA_setA_self m p.window_id _

theorem gocwd_mapping_ne (p : Pane) (fs : Node) (m : Mapping) (w : Str)
    (hw : p.window_id ≠ w) :
    getA (get_or_create_window_dir p fs m).mapping w = getA m w := by
  rcases hg : getA m p.window_id with _ | old
  · simp only [get_or_create_window_dir, hg]
    exact getA_setA_ne m p.window_id w _ hw
  · simp only [get_or_create_window_dir, hg]
    by_cases he : old = get_window_dir_name p.window_index p.window_name
    · rw [if_pos he]
    · rw [if_neg he]
      exact getA_setA_ne m p.window_id w _ hw

theorem gocwd_noop (p : Pane) (fs : Node) (m : Mapping)
    (h : getA m p.window_id = some (gwdnP p)) :
    get_or_create_window_dir p fs m = ⟨fs, m, gwdnP p, false⟩ := by
  simp only [get_or_create_window_dir, h, gwdnP]
  exact if_pos trivial

theorem foldF_preserved (spanes : List Pane) (acc : Node × Mapping × List Bool)
    (w : Str) (v : Str) (hv : getA acc.2.1 w = some v)
    (hall : ∀ r ∈ spanes, r.window_id = w → gwdnP r = v) :
    getA (spanes.foldl gocwdStep acc).2.1 w = some v := by
  induction spanes generalizing acc with
  | nil => exact hv
  | cons q rest ih =>
    rw [List.foldl_cons]
    apply ih
    · by_cases hq : q.window_id = w
      · have : gwdnP q = v := hall q (by simp) hq
        show getA (get_or_create_window_dir q acc.1 acc.2.1).mapping w = some v
        rw [← hq, gocwd_mapping_self, this]
      · show getA (get_or_create_window_dir q acc.1 acc.2.1).mapping w = some v
        rw [gocwd_mapping_ne q acc.1 acc.2.1 w hq]
        exact hv
    · exact fun r hr => hall r (List.mem_cons_of_mem _ hr)

theorem foldF_lookup (spanes : List Pane) (acc : Node × Mapping × List Bool)
    (p : Pane) (hp : p ∈ spanes)
    (hcons : ∀ a ∈ spanes, ∀ b ∈ spanes, a.window_id = b.window_id →
      gwdnP a = gwdnP b) :
    getA (spanes.foldl gocwdStep acc).2.1 p.window_id = some (gwdnP p) := by
  induction spanes generalizing acc with
  | nil => simp at hp
  | cons q rest ih =>
    rw [List.foldl_cons]
    rcases List.mem_cons.mp hp with h1 | h1
    · subst h1
      apply foldF_preserved
      · show getA (get_or_create_window_dir p acc.1 acc.2.1).mapping p.window_id =
          some (gwdnP p)
        exact gocwd_mapping_self p acc.1 acc.2.1
      · intro r hr hw
        exact hcons r (List.mem_cons_of_mem _ hr) p (by simp) hw
    · exact ih _ h1 fun a ha b hb =>
        hcons a (List.mem_cons_of_mem _ ha) b (List.mem_cons_of_mem _ hb)

theorem foldF_wf3 (spanes : List Pane) (acc : Node × Mapping × List Bool)
    (h : Node.wf3 acc.1 = true) :
    Node.wf3 (spanes.foldl gocwdStep acc).1 = true := by
  induction spanes generalizing acc with
  | nil => exact h
  | cons q rest ih =>
    rw [List.foldl_cons]
    exact ih _ (gocwd_fs_wf3 q acc.1 acc.2.1 h)

theorem foldF_noop (spanes : List Pane) (acc : Node × Mapping × List Bool)
    (hall : ∀ p ∈ spanes, getA acc.2.1 p.window_id = some (gwdnP p)) :
    spanes.foldl gocwdStep acc =
      (acc.1, acc.2.1, acc.2.2 ++ List.replicate spanes.length false) := by
  induction spanes generalizing acc with
  | nil => simp
  | cons q rest ih =>
    rw [List.foldl_cons]
    have hq : gocwdStep acc q = (acc.1, acc.2.1, acc.2.2 ++ [false]) := by
      show (let r := get_or_create_window_dir q acc.1 acc.2.1
        (r.fs, r.mapping, acc.2.2 ++ [r.changed])) = _
      rw [gocwd_noop q acc.1 acc.2.1 (hall q (by simp))]
    rw [hq, ih (acc.1, acc.2.1, acc.2.2 ++ [false])
      (fun p hp => hall p (List.mem_cons_of_mem _ hp))]
    simp [List.replicate_succ]

theorem getA_insertGroup_self (l : List (Str × List Pane)) (p : Pane) :
    getA (insertGroup l p) p.session = some ((getA l p.session).getD [] ++ [p]) := by
  induction l with
  | nil => simp [insertGroup, getA]
  | cons e rest ih =>
    obtain ⟨s, ps⟩ := e
    by_cases h1 : s = p.session
    · subst h1
      simp [insertGroup, getA]
    · simp only [insertGroup, if_neg h1, getA, if_neg h1]
      exact ih

theorem getA_insertGroup_ne (l : List (Str × List Pane)) (p : Pane) (s : Str)
    (h : s ≠ p.session) : getA (insertGroup l p) s = getA l s := by
  induction l with
  | nil =>
    show getA [(p.session, [p])] s = getA [] s
    simp only [getA]
    rw [if_neg fun (he : p.session = s) => h he.symm]
  | cons e rest ih =>
    obtain ⟨s1, ps⟩ := e
    by_cases h1 : s1 = p.session
    · subst h1
      simp only [insertGroup, if_pos rfl, getA]
      rw [if_neg fun (he : p.session = s) => h he.symm,
        if_neg fun (he : p.session = s) => h he.symm]
    · simp only [insertGroup, if_neg h1, getA]
      by_cases h2 : s1 = s
      · simp [h2]
      · simp [h2, ih]

theorem mem_insertGroup_strong (l : List (Str × List Pane)) (x : Pane)
    (e : Str × List Pane) (h : e ∈ insertGroup l x) :
    e ∈ l ∨ e = (x.session, [x]) ∨
      ∃ ps, (x.session, ps) ∈ l ∧ e = (x.session, ps ++ [x]) := by
  induction l with
  | nil =>
    simp only [insertGroup, List.mem_singleton] at h
    exact Or.inr (Or.inl h)
  | cons f rest ih =>
    obtain ⟨s, ps⟩ := f
    by_cases h1 : s = x.session
    · subst h1
      have hs : insertGroup ((x.session, ps) :: rest) x =
          (x.session, ps ++ [x]) :: rest := by
        simp [insertGroup]
      rw [hs, List.mem_cons] at h
      rcases h with h2 | h2
      · exact Or.inr (Or.inr ⟨ps, by simp, h2⟩)
      · exact Or.inl (List.mem_cons_of_mem _ h2)
    · simp only [insertGroup, if_neg h1, List.mem_cons] at h
      rcases h with h2 | h2
      · exact Or.inl (by simp [h2])
      · rcases ih h2 with h3 | h3 | ⟨qs, hqs, h3⟩
        · exact Or.inl (List.mem_cons_of_mem _ h3)
        · exact Or.inr (Or.inl h3)
        · exact Or.inr (Or.inr ⟨qs, List.mem_cons_of_mem _ hqs, h3⟩)

theorem keysNodupA_insertGroup (l : List (Str × List Pane)) (x : Pane)
    (h : keysNodupA l = true) : keysNodupA (insertGroup l x) = true := by
  induction l with
  | nil => simp [insertGroup, keysNodupA]
  | cons f rest ih =>
    obtain ⟨s, ps⟩ := f
    by_cases h1 : s = x.session
    · subst h1
      simp only [insertGroup, if_pos rfl, keysNodupA, Bool.and_eq_true,
        Bool.not_eq_true', List.any_eq_false] at h ⊢
      exact ⟨fun e he => h.1 e he, h.2⟩
    · simp only [insertGroup, if_neg h1, keysNodupA, Bool.and_eq_true,
        Bool.not_eq_true', List.any_eq_false] at h ⊢
      constructor
      · intro e he
        rcases mem_insertGroup_strong rest x e he with h2 | h2 | ⟨qs, hqs, h2⟩
        · exact h.1 e h2
        · rw [h2]
          simpa using fun hc => h1 hc.symm
        · rw [h2]
          simpa using fun hc => h1 hc.symm
      · exact ih h.2

theorem keysNodupA_groupBySession (panes : List Pane) :
    keysNodupA (groupBySession panes) = true := by
  have aux : ∀ (l : List Pane) (acc : List (Str × List Pane)),
      keysNodupA acc = true → keysNodupA (l.foldl insertGroup acc) = true := by
    intro l
    induction l with
    | nil => exact fun acc h => h
    | cons x rest ih =>
      intro acc h
      exact ih _ (keysNodupA_insertGroup acc x h)
  exact aux panes [] rfl

theorem groups_sessions (panes : List Pane) :
    ∀ e ∈ groupBySession panes,
      (∀ q ∈ e.2, q.session = e.1 ∧ q ∈ panes) ∧ e.2 ≠ [] := by
  have aux : ∀ (l : List Pane) (acc : List (Str × List Pane)),
      (∀ x ∈ l, x ∈ panes) →
      (∀ e ∈ acc, (∀ q ∈ e.2, q.session = e.1 ∧ q ∈ panes) ∧ e.2 ≠ []) →
      ∀ e ∈ l.foldl insertGroup acc,
        (∀ q ∈ e.2, q.session = e.1 ∧ q ∈ panes) ∧ e.2 ≠ [] := by
    intro l
    induction l with
    | nil => exact fun acc _ hacc => hacc
    | cons x rest ih =>
      intro acc hl hacc
      rw [List.foldl_cons]
      apply ih _ (fun y hy => hl y (List.mem_cons_of_mem _ hy))
      intro e he
      rcases mem_insertGroup_strong acc x e he with h2 | h2 | ⟨qs, hqs, h2⟩
      · exact hacc e h2
      · subst h2
        refine ⟨?_, by simp⟩
        intro q hq
        have hq2 : q = x := List.mem_singleton.mp hq
        subst hq2
        exact ⟨rfl, hl q (by simp)⟩
      · subst h2
        have hold := hacc (x.session, qs) hqs
        refine ⟨?_, by simp⟩
        intro q hq
        rcases List.mem_append.mp hq with h3 | h3
        · exact hold.1 q h3
        · have hq2 : q = x := List.mem_singleton.mp h3
          subst hq2
          exact ⟨rfl, hl q (by simp)⟩
  exact aux panes [] (fun x hx => hx) (by simp)

theorem groups_cover (panes : List Pane) (p : Pane) (hp : p ∈ panes) :
    ∃ ps, getA (groupBySession panes) p.session = some ps ∧ p ∈ ps := by
  have persist : ∀ (acc : List (Str × List Pane)) (x : Pane),
      (∃ ps, getA acc p.session = some ps ∧ p ∈ ps) →
      ∃ ps, getA (insertGroup acc x) p.session = some ps ∧ p ∈ ps := by
    intro acc x ⟨ps, hps, hpin⟩
    by_cases he : p.session = x.session
    · refine ⟨(getA acc p.session).getD [] ++ [x], ?_, ?_⟩
      · rw [he]
        have := getA_insertGroup_self acc x
        rw [← he] at this ⊢
        exact this
      · rw [hps]
        simp [hpin]
    · exact ⟨ps, by rw [getA_insertGroup_ne acc x p.session he]; exact hps, hpin⟩
  have aux : ∀ (l : List Pane) (acc : List (Str × List Pane)),
      (p ∈ l ∨ ∃ ps, getA acc p.session = some ps ∧ p ∈ ps) →
      ∃ ps, getA (l.foldl insertGroup acc) p.session = some ps ∧ p ∈ ps := by
    intro l
    induction l with
    | nil =>
      intro acc h
      rcases h with h | h
      · simp at h
      · exact h
    | cons x rest ih =>
      intro acc h
      rw [List.foldl_cons]
      apply ih
      rcases h with h | h
      · rcases List.mem_cons.mp h with h2 | h2
        · subst h2
          refine Or.inr ⟨(getA acc p.session).getD [] ++ [p], ?_, by simp⟩
          exact getA_insertGroup_self acc p
        · exact Or.inl h2
      · exact Or.inr (persist acc x h)
  exact aux panes [] (Or.inl hp)

theorem foldG_preserve (groups : List (Str × List Pane))
    (acc : Node × SM × List Bool) (s : Str)
    (hs : ∀ g ∈ groups, g.1 ≠ s) :
    getA (groups.foldl sessionStep acc).2.1 s = getA acc.2.1 s := by
  induction groups generalizing acc with
  | nil => rfl
  | cons g rest ih =>
    rw [List.foldl_cons,
      ih _ fun x hx => hs x (List.mem_cons_of_mem _ hx)]
    show getA (setA acc.2.1 g.1 _) s = getA acc.2.1 s
    exact getA_setA_ne acc.2.1 g.1 s _ (hs g (by simp))

theorem foldG_lookup (groups : List (Str × List Pane))
    (acc : Node × SM × List Bool) (s : Str) (ps : List Pane) (p : Pane)
    (hn : keysNodupA groups = true)
    (hmem : (s, ps) ∈ groups) (hp : p ∈ ps)
    (hcons2 : ∀ g ∈ groups, ∀ a ∈ g.2, ∀ b ∈ g.2,
      a.window_id = b.window_id → gwdnP a = gwdnP b) :
    ∃ mp, getA (groups.foldl sessionStep acc).2.1 s = some mp ∧
      getA mp p.window_id = some (gwdnP p) := by
  induction groups generalizing acc with
  | nil => simp at hmem
  | cons g rest ih =>
    rw [List.foldl_cons]
    rcases List.mem_cons.mp hmem with h1 | h1
    · have hgs : g.1 = s := by rw [← h1]
      have hps : g.2 = ps := by rw [← h1]
      refine ⟨(reconcileSession acc.1 ((getA acc.2.1 g.1).getD []) g.2).2.1, ?_, ?_⟩
      · rw [foldG_preserve rest _ s
          fun x hx => by
            have := keysNodupA_head g rest hn x hx
            rw [hgs] at this
            exact this]
        show getA (setA acc.2.1 g.1 _) s = _
        rw [← hgs]
        exact getA_setA_self acc.2.1 g.1 _
      · unfold reconcileSession
        apply foldF_lookup g.2 _ p (hps ▸ hp)
        exact hcons2 g (by simp)
    · exact ih _ (keysNodupA_tail g rest hn) h1
        fun x hx => hcons2 x (List.mem_cons_of_mem _ hx)

theorem foldG_wf3 (groups : List (Str × List Pane))
    (acc : Node × SM × List Bool) (h : Node.wf3 acc.1 = true) :
    Node.wf3 (groups.foldl sessionStep acc).1 = true := by
  induction groups generalizing acc with
  | nil => exact h
  | cons g rest ih =>
    rw [List.foldl_cons]
    apply ih
    show Node.wf3 (reconcileSession acc.1 _ g.2).1 = true
    unfold reconcileSession
    exact foldF_wf3 g.2 _ h

theorem foldG_noop (groups : List (Str × List Pane))
    (acc : Node × SM × List Bool)
    (hall : ∀ g ∈ groups, ∃ mg, getA acc.2.1 g.1 = some mg ∧
      ∀ p ∈ g.2, getA mg p.window_id = some (gwdnP p)) :
    (groups.foldl sessionStep acc).1 = acc.1 ∧
    (groups.foldl sessionStep acc).2.1 = acc.2.1 ∧
    ∀ b ∈ (groups.foldl sessionStep acc).2.2, b ∈ acc.2.2 ∨ b = false := by
  induction groups generalizing acc with
  | nil => exact ⟨rfl, rfl, fun b hb => Or.inl hb⟩
  | cons g rest ih =>
    rw [List.foldl_cons]
    obtain ⟨mg, hmg, hps⟩ := hall g (by simp)
    have hstep : sessionStep acc g =
        (acc.1, acc.2.1, acc.2.2 ++ List.replicate g.2.length false) := by
      show (let m := (getA acc.2.1 g.1).getD []
        let r := reconcileSession acc.1 m g.2
        (r.1, setA acc.2.1 g.1 r.2.1, acc.2.2 ++ r.2.2)) = _
      rw [hmg]
      show (let r := reconcileSession acc.1 mg g.2
        (r.1, setA acc.2.1 g.1 r.2.1, acc.2.2 ++ r.2.2)) = _
      have hrs : reconcileSession acc.1 mg g.2 =
          (acc.1, mg, [] ++ List.replicate g.2.length false) := by
        unfold reconcileSession
        exact foldF_noop g.2 (acc.1, mg, []) hps
      rw [hrs]
      show (acc.1, setA acc.2.1 g.1 mg, acc.2.2 ++ ([] ++ _)) = _
      rw [setA_self acc.2.1 g.1 mg hmg, List.nil_append]
    rw [hstep]
    obtain ⟨ih1, ih2, ih3⟩ := ih (acc.1, acc.2.1, acc.2.2 ++ List.replicate g.2.length false)
      (by
        intro g2 hg2
        obtain ⟨mg2, hmg2, hps2⟩ := hall g2 (List.mem_cons_of_mem _ hg2)
        exact ⟨mg2, hmg2, hps2⟩)
    refine ⟨ih1, ih2, ?_⟩
    intro b hb
    rcases ih3 b hb with h2 | h2
    · rcases List.mem_append.mp h2 with h3 | h3
      · exact Or.inl h3
      · exact Or.inr (List.eq_of_mem_replicate h3)
    · exact Or.inr h2

theorem prune_getA (panes : List Pane) (sm : SM) (s : Str) :
    getA (pruneMappings panes sm) s =
      (getA sm s).map fun mp =>
        mp.filter fun w => w.1 ∈ activeWindowIds panes s := by
  induction sm with
  | nil => rfl
  | cons e rest ih =>
    obtain ⟨s1, m1⟩ := e
    by_cases h1 : s1 = s
    · subst h1
      simp [pruneMappings, getA]
    · simp only [pruneMappings, List.map_cons, getA, if_neg h1]
      exact ih

theorem prune_live (panes : List Pane) (sm : SM) (p : Pane) (mp : Mapping)
    (hp : p ∈ panes) (hmp : getA sm p.session = some mp) (v : Str)
    (hv : getA mp p.window_id = some v) :
    ∃ mp2, getA (pruneMappings panes sm) p.session = some mp2 ∧
      getA mp2 p.window_id = some v := by
  rw [prune_getA, hmp]
  refine ⟨_, rfl, ?_⟩
  apply getA_filter_key mp p.window_id v
    (fun k => decide (k ∈ activeWindowIds panes p.session)) hv
  simp only [decide_eq_true_eq, activeWindowIds, List.mem_map]
  exact ⟨p, List.mem_filter.mpr ⟨hp, by simp⟩, rfl⟩

theorem prune_idem (panes : List Pane) (sm : SM) :
    pruneMappings panes (pruneMappings panes sm) = pruneMappings panes sm := by
  unfold pruneMappings
  rw [List.map_map]
  apply map_congr_mem
  intro e he
  simp only [Function.comp]
  congr 1
  apply List.filter_eq_self.mpr
  intro a ha
  exact (List.mem_filter.mp ha).2

theorem windowDirNameFor_eq (sm : SM) (p : Pane) (mp : Mapping)
    (h1 : getA sm p.session = some mp)
    (h2 : getA mp p.window_id = some (gwdnP p)) :
    windowDirNameFor sm p = gwdnP p := by
  unfold windowDirNameFor
  rw [h1]
  show (match getA mp p.window_id with
    | some nm => nm
    | none => get_window_dir_name p.window_index p.window_name) = gwdnP p
  rw [h2]

theorem filterMap_eq_nil_of {α β : Type} (l : List α) (f : α → Option β)
    (h : ∀ a ∈ l, f a = none) : l.filterMap f = [] := by
  induction l with
  | nil => rfl
  | cons x xs ih =>
    rw [List.filterMap_cons, h x (by simp)]
    exact ih fun a ha => h a (List.mem_cons_of_mem _ ha)

theorem flatMap_eq_nil_of {α β : Type} (l : List α) (f : α → List β)
    (h : ∀ a ∈ l, f a = []) : l.flatMap f = [] := by
  induction l with
  | nil => rfl
  | cons x xs ih =>
    rw [List.flatMap_cons, h x (by simp),
      ih fun a ha => h a (List.mem_cons_of_mem _ ha)]
    rfl

theorem collectStale_sessions_shape (root : Node) (aS aW aP : List (List Str))
    (p : List Str) (hp : p ∈ (collectStale root aS aW aP).sessions) :
    ∃ a, p = [a] := by
  simp only [collectStale, List.mem_filterMap] at hp
  obtain ⟨e, _, he⟩ := hp
  obtain ⟨_, rfl⟩ := ite_some_eq he
  exact ⟨e.1, rfl⟩

theorem collectStale_windows_shape (root : Node) (aS aW aP : List (List Str))
    (p : List Str) (hp : p ∈ (collectStale root aS aW aP).windows) :
    ∃ a b, p = [a, b] := by
  simp only [collectStale, List.mem_flatMap, List.mem_filter, List.mem_filterMap] at hp
  obtain ⟨se, _, we, _, he⟩ := hp
  obtain ⟨_, rfl⟩ := ite_some_eq he
  exact ⟨se.1, we.1, rfl⟩

theorem collectStale_panes_shape (root : Node) (aS aW aP : List (List Str))
    (p : List Str) (hp : p ∈ (collectStale root aS aW aP).panes) :
    ∃ a b c, p = [a, b, c] := by
  simp only [collectStale, List.mem_flatMap, List.mem_filter, List.mem_filterMap] at hp
  obtain ⟨se, _, we, _, pe, _, he⟩ := hp
  obtain ⟨_, rfl⟩ := ite_some_eq he
  exact ⟨se.1, we.1, pe.1, rfl⟩

theorem collectEmptySessions_shape (fs : Node) (p : List Str)
    (hp : p ∈ collectEmptySessions fs) : ∃ a, p = [a] := by
  simp only [collectEmptySessions, List.mem_filterMap] at hp
  obtain ⟨e, _, he⟩ := hp
  obtain ⟨_, rfl⟩ := ite_some_eq he
  exact ⟨e.1, rfl⟩

theorem collectStale_sessions_intro (root : Node) (aS aW aP : List (List Str))
    (e : Str × Node) (he : e ∈ root.childrenD)
    (h1 : e.2.isDir = true) (h2 : dotName e.1 = false) (h3 : [e.1] ∉ aS) :
    [e.1] ∈ (collectStale root aS aW aP).sessions := by
  show [e.1] ∈ root.childrenD.filterMap _
  apply List.mem_filterMap.mpr
  exact ⟨e, he, by rw [if_pos ⟨h1, by simp [h2], h3⟩]⟩

theorem mem_liveSessions (root : Node) (aS : List (List Str)) (e : Str × Node)
    (he : e ∈ root.childrenD) (h1 : e.2.isDir = true) (h2 : dotName e.1 = false)
    (h3 : [e.1] ∈ aS) :
    e ∈ root.childrenD.filter
      fun x => x.2.isDir ∧ ¬ dotName x.1 ∧ [x.1] ∈ aS := by
  apply List.mem_filter.mpr
  refine ⟨he, ?_⟩
  simp [h1, h2, h3]

theorem collectStale_windows_intro (root : Node) (aS aW aP : List (List Str))
    (se we : Str × Node) (hse : se ∈ root.childrenD)
    (h1 : se.2.isDir = true) (h2 : dotName se.1 = false) (h3 : [se.1] ∈ aS)
    (hwe : we ∈ se.2.childrenD) (h4 : we.2.isDir = true)
    (h5 : [se.1, we.1] ∉ aW) :
    [se.1, we.1] ∈ (collectStale root aS aW aP).windows := by
  show [se.1, we.1] ∈ List.flatMap _ _
  apply List.mem_flatMap.mpr
  refine ⟨se, mem_liveSessions root aS se hse h1 h2 h3, ?_⟩
  apply List.mem_filterMap.mpr
  exact ⟨we, hwe, by rw [if_pos ⟨h4, h5⟩]⟩

theorem collectStale_panes_intro (root : Node) (aS aW aP : List (List Str))
    (se we pe : Str × Node) (hse : se ∈ root.childrenD)
    (h1 : se.2.isDir = true) (h2 : dotName se.1 = false) (h3 : [se.1] ∈ aS)
    (hwe : we ∈ se.2.childrenD) (h4 : we.2.isDir = true)
    (h5 : [se.1, we.1] ∈ aW)
    (hpe : pe ∈ we.2.childrenD) (h6 : pe.2.isDir = true)
    (h7 : [se.1, we.1, pe.1] ∉ aP) :
    [se.1, we.1, pe.1] ∈ (collectStale root aS aW aP).panes := by
  show [se.1, we.1, pe.1] ∈ List.flatMap _ _
  apply List.mem_flatMap.mpr
  refine ⟨se, mem_liveSessions root aS se hse h1 h2 h3, ?_⟩
  apply List.mem_flatMap.mpr
  refine ⟨we, ?_, ?_⟩
  · apply List.mem_filter.mpr
    refine ⟨hwe, ?_⟩
    simp [h4, h5]
  · apply List.mem_filterMap.mpr
    exact ⟨pe, hpe, by rw [if_pos ⟨h6, h7⟩]⟩

theorem collectEmptySessions_intro (fs : Node) (e : Str × Node)
    (he : e ∈ fs.childrenD) (h1 : e.2.isDir = true) (h2 : dotName e.1 = false)
    (h3 : (e.2.childrenD.filter
      fun c : Str × Node => c.1 ≠ str "windows.json").isEmpty = true) :
    [e.1] ∈ collectEmptySessions fs := by
  unfold collectEmptySessions
  apply List.mem_filterMap.mpr
  exact ⟨e, he, by rw [if_pos ⟨h1, by simp [h2], h3⟩]⟩

theorem collectStale_of_clean (fs : Node) (aS aW aP : List (List Str))
    (hc : CleanTree fs aS aW aP) :
    collectStale fs aS aW aP = ⟨[], [], []⟩ := by
  simp only [collectStale, StaleDirs.mk.injEq]
  refine ⟨?_, ?_, ?_⟩
  · apply filterMap_eq_nil_of
    intro e he
    rw [if_neg]
    rintro ⟨h1, h2, h3⟩
    exact h3 (hc e he h1 (by simpa using h2)).1
  · apply flatMap_eq_nil_of
    intro se hse
    have hf := List.mem_filter.mp hse
    simp only [decide_eq_true_eq] at hf
    obtain ⟨hmem, h1, h2, _⟩ := And.intro hf.1 hf.2
    apply filterMap_eq_nil_of
    intro we hwe
    rw [if_neg]
    rintro ⟨h4, h5⟩
    exact h5 ((hc se hmem h1 (by simpa using h2)).2 we hwe h4).1
  · apply flatMap_eq_nil_of
    intro se hse
    have hf := List.mem_filter.mp hse
    simp only [decide_eq_true_eq] at hf
    obtain ⟨hmem, h1, h2, _⟩ := And.intro hf.1 hf.2
    apply flatMap_eq_nil_of
    intro we hwe
    have hfw := List.mem_filter.mp hwe
    simp only [decide_eq_true_eq] at hfw
    obtain ⟨hwmem, h4, h5⟩ := And.intro hfw.1 hfw.2
    apply filterMap_eq_nil_of
    intro pe hpe
    rw [if_neg]
    rintro ⟨h6, h7⟩
    exact h7 (((hc se hmem h1 (by simpa using h2)).2 we hwmem h4).2 pe hpe h6)

theorem collectEmptySessions_of_noEmpty (fs : Node) (hne : NoEmptySessions fs) :
    collectEmptySessions fs = [] := by
  unfold collectEmptySessions
  apply filterMap_eq_nil_of
  intro e he
  rw [if_neg]
  rintro ⟨h1, h2, h3⟩
  apply hne e he h1 (by simpa using h2)
  cases hl : e.2.childrenD.filter fun c : Str × Node => c.1 ≠ str "windows.json" with
  | nil => rfl
  | cons x xs =>
    rw [hl] at h3
    simp [List.isEmpty] at h3

theorem cleanup_stale_of_clean (fs : Node) (panes : List Pane) (sm : SM)
    (hc : CleanTree fs (activeSessionDirs panes) (activeWindowDirs sm panes)
      (activePaneDirs sm panes))
    (hne : NoEmptySessions fs) :
    cleanup_stale fs panes sm = (fs, pruneMappings panes sm) := by
  simp only [cleanup_stale]
  rw [collectStale_of_clean _ _ _ _ hc]
  have h1 : removeStale fs ⟨[], [], []⟩ = fs := rfl
  rw [h1]
  simp only [removeEmptySessions]
  rw [collectEmptySessions_of_noEmpty fs hne]
  rfl

theorem keysNodupA_children_foldl_single (L : List (List Str))
    (cs : List (Str × Node)) (hn : keysNodupA cs = true)
    (hL : ∀ p ∈ L, ∃ n, p = [n]) :
    keysNodupA ((L.foldl Node.deleteAt (.dir cs)).childrenD) = true := by
  induction L generalizing cs with
  | nil => exact hn
  | cons p rest ih =>
    obtain ⟨n, rfl⟩ := hL p (by simp)
    rw [List.foldl_cons, deleteAt_dir_one]
    exact ih (delA cs n) (keysNodupA_delA cs n hn)
      fun q hq => hL q (List.mem_cons_of_mem _ hq)

theorem isDir_exists_dir (n : Node) (h : n.isDir = true) : ∃ cs, n = .dir cs := by
  cases n with
  | file c => simp [Node.isDir] at h
  | dir cs => exact ⟨cs, rfl⟩

theorem sweep_establishes (fsA : Node) (aS aW aP : List (List Str))
    (hwf : Node.wf3 fsA = true) :
    CleanTree (removeEmptySessions (removeStale fsA (collectStale fsA aS aW aP)))
        aS aW aP ∧
    NoEmptySessions
      (removeEmptySessions (removeStale fsA (collectStale fsA aS aW aP))) := by
  cases fsA with
  | file c =>
    constructor
    · intro e he
      exact absurd he (List.not_mem_nil e)
    · intro e he
      exact absurd he (List.not_mem_nil e)
  | dir csA =>
    have hnA : keysNodupA csA = true := wfAtDepth_keysNodup 2 csA hwf
    set sd := collectStale (.dir csA) aS aW aP with hsd
    have hpaneShape : ∀ p ∈ sd.panes, ∃ a b c2, p = [a, b, c2] :=
      fun p hp => collectStale_panes_shape _ aS aW aP p hp
    have hwinShape : ∀ p ∈ sd.windows, ∃ a b, p = [a, b] :=
      fun p hp => collectStale_windows_shape _ aS aW aP p hp
    have hsessShape : ∀ p ∈ sd.sessions, ∃ a, p = [a] :=
      fun p hp => collectStale_sessions_shape _ aS aW aP p hp
    have hL2shape : ∀ p ∈ sd.panes ++ sd.windows, ∃ h t, p = h :: t ∧ t ≠ [] := by
      intro p hp
      rcases List.mem_append.mp hp with h1 | h1
      · obtain ⟨a, b, c2, rfl⟩ := hpaneShape p h1
        exact ⟨a, [b, c2], rfl, by simp⟩
      · obtain ⟨a, b, rfl⟩ := hwinShape p h1
        exact ⟨a, [b], rfl, by simp⟩
    have hrs : removeStale (.dir csA) sd =
        sd.sessions.foldl Node.deleteAt
          ((sd.panes ++ sd.windows).foldl Node.deleteAt (.dir csA)) := by
      simp only [removeStale, List.foldl_append]
    have hdeep := foldl_deleteAt_deep (sd.panes ++ sd.windows) csA hnA hL2shape
    have hn2 : keysNodupA (csA.map fun e =>
        (e.1, (tailsFor e.1 (sd.panes ++ sd.windows)).foldl Node.deleteAt e.2)) = true := by
      exact keysNodupA_map_fst csA
        (fun e => (e.1, (tailsFor e.1 (sd.panes ++ sd.windows)).foldl Node.deleteAt e.2))
        (fun e => rfl) hnA
    have hmem3 : ∀ e, e ∈ (removeStale (.dir csA) sd).childrenD ↔
        e ∈ (csA.map fun e =>
          (e.1, (tailsFor e.1 (sd.panes ++ sd.windows)).foldl Node.deleteAt e.2)) ∧
        [e.1] ∉ sd.sessions := by
      intro e
      rw [hrs, hdeep]
      exact mem_children_foldl_deleteAt_single sd.sessions _ hn2 hsessShape e
    have hn3 : keysNodupA (removeStale (.dir csA) sd).childrenD = true := by
      rw [hrs, hdeep]
      exact keysNodupA_children_foldl_single sd.sessions _ hn2 hsessShape
    have hdir3 : (removeStale (.dir csA) sd).isDir = true := by
      rw [hrs, hdeep]
      rw [isDir_foldl_deleteAt]
      rfl
    obtain ⟨cs3, hcs3⟩ := isDir_exists_dir _ hdir3
    have hmem4 : ∀ e, e ∈ (removeEmptySessions (removeStale (.dir csA) sd)).childrenD ↔
        e ∈ (removeStale (.dir csA) sd).childrenD ∧
        [e.1] ∉ collectEmptySessions (removeStale (.dir csA) sd) := by
      intro e
      have hn3b : keysNodupA cs3 = true := by
        rw [hcs3] at hn3
        exact hn3
      unfold removeEmptySessions
      rw [hcs3]
      exact mem_children_foldl_deleteAt_single
        (collectEmptySessions (Node.dir cs3)) cs3 hn3b
        (fun p hp => collectEmptySessions_shape _ p hp) e
    -- main decomposition of a surviving root entry
    have hdecomp : ∀ e, e ∈ (removeEmptySessions (removeStale (.dir csA) sd)).childrenD →
        e.2.isDir = true → dotName e.1 = false →
        ∃ e0 ∈ csA, e.1 = e0.1 ∧
          e.2 = (tailsFor e0.1 (sd.panes ++ sd.windows)).foldl Node.deleteAt e0.2 ∧
          e0.2.isDir = true ∧ [e.1] ∉ sd.sessions := by
      intro e he hdir hdot
      obtain ⟨he3, _⟩ := (hmem4 e).mp he
      obtain ⟨he2, hnsess⟩ := (hmem3 e).mp he3
      obtain ⟨e0, he0, hFe⟩ := List.mem_map.mp he2
      have h1e : e.1 = e0.1 := by rw [← hFe]
      have h2e : e.2 = (tailsFor e0.1 (sd.panes ++ sd.windows)).foldl Node.deleteAt e0.2 := by
        rw [← hFe]
      have hdir0 : e0.2.isDir = true := by
        rw [h2e, isDir_foldl_deleteAt] at hdir
        exact hdir
      exact ⟨e0, he0, h1e, h2e, hdir0, hnsess⟩
    have hactiveS : ∀ e, e ∈ (removeEmptySessions (removeStale (.dir csA) sd)).childrenD →
        e.2.isDir = true → dotName e.1 = false → [e.1] ∈ aS := by
      intro e he hdir hdot
      obtain ⟨e0, he0, h1e, h2e, hdir0, hnsess⟩ := hdecomp e he hdir hdot
      by_contra hnot
      apply hnsess
      rw [h1e]
      exact collectStale_sessions_intro (.dir csA) aS aW aP e0 he0 hdir0
        (by rw [← h1e]; exact hdot) (by rw [← h1e]; exact hnot)
    constructor
    · -- CleanTree
      intro e he hdir hdot
      obtain ⟨e0, he0, h1e, h2e, hdir0, hnsess⟩ := hdecomp e he hdir hdot
      have haS : [e.1] ∈ aS := hactiveS e he hdir hdot
      refine ⟨haS, ?_⟩
      intro w hw hdirw
      obtain ⟨ds, hds⟩ := isDir_exists_dir e0.2 hdir0
      have hnds : keysNodupA ds = true := by
        have h2 := wfAtDepth_mem_child 2 csA e0 hwf he0
        rw [hds] at h2
        exact wfAtDepth_keysNodup 1 ds h2
      have hsplit : tailsFor e0.1 (sd.panes ++ sd.windows) =
          tailsFor e0.1 sd.panes ++ tailsFor e0.1 sd.windows := tailsFor_append _ _ _
      have hPshape : ∀ t ∈ tailsFor e0.1 sd.panes, ∃ h t2, t = h :: t2 ∧ t2 ≠ [] := by
        intro t ht
        have := mem_of_mem_tailsFor _ _ _ ht
        obtain ⟨a, b, c2, habc⟩ := hpaneShape _ this
        have h2 : t = [b, c2] := by
          have h3 := congrArg List.tail habc
          simpa using h3
        exact ⟨b, [c2], h2, by simp⟩
      have hWshape : ∀ t ∈ tailsFor e0.1 sd.windows, ∃ n, t = [n] := by
        intro t ht
        have := mem_of_mem_tailsFor _ _ _ ht
        obtain ⟨a, b, hab⟩ := hwinShape _ this
        have h2 : t = [b] := by
          have h3 := congrArg List.tail hab
          simpa using h3
        exact ⟨b, h2⟩
      have hdeep2 := foldl_deleteAt_deep (tailsFor e0.1 sd.panes) ds hnds hPshape
      have hn2d : keysNodupA (ds.map fun f =>
          (f.1, (tailsFor f.1 (tailsFor e0.1 sd.panes)).foldl Node.deleteAt f.2)) = true :=
        keysNodupA_map_fst ds _ (fun f => rfl) hnds
      have he2eq : e.2 = (tailsFor e0.1 sd.windows).foldl Node.deleteAt
          (.dir (ds.map fun f =>
            (f.1, (tailsFor f.1 (tailsFor e0.1 sd.panes)).foldl Node.deleteAt f.2))) := by
        rw [h2e, hsplit, List.foldl_append, hds, hdeep2]
      have hwmem := (by
        rw [he2eq] at hw
        exact (mem_children_foldl_deleteAt_single _ _ hn2d hWshape w).mp hw)
      obtain ⟨hwds, hwnots⟩ := hwmem
      obtain ⟨f0, hf0, hGf⟩ := List.mem_map.mp hwds
      have h1w : w.1 = f0.1 := by rw [← hGf]
      have h2w : w.2 = (tailsFor f0.1 (tailsFor e0.1 sd.panes)).foldl Node.deleteAt f0.2 := by
        rw [← hGf]
      have hdirf0 : f0.2.isDir = true := by
        rw [h2w, isDir_foldl_deleteAt] at hdirw
        exact hdirw
      have hwmemds : f0 ∈ ds := hf0
      have haW : [e.1, w.1] ∈ aW := by
        by_contra hnot
        apply hwnots
        rw [h1w]
        apply mem_tailsFor
        exact collectStale_windows_intro (.dir csA) aS aW aP e0 f0 he0 hdir0
          (by rw [← h1e]; exact hdot) (by rw [← h1e]; exact haS)
          (by rw [hds]; exact hwmemds) hdirf0
          (by rw [← h1e, ← h1w]; exact hnot)
      refine ⟨haW, ?_⟩
      intro q hq hdirq
      obtain ⟨es, hes⟩ := isDir_exists_dir f0.2 hdirf0
      have hnes : keysNodupA es = true := by
        have h2 := wfAtDepth_mem_child 2 csA e0 hwf he0
        rw [hds] at h2
        have h1 := wfAtDepth_mem_child 1 ds f0 h2 hwmemds
        rw [hes] at h1
        exact wfAtDepth_keysNodup 0 es h1
      have hQshape : ∀ t ∈ tailsFor f0.1 (tailsFor e0.1 sd.panes), ∃ n, t = [n] := by
        intro t ht
        have ht2 := mem_of_mem_tailsFor _ _ _ ht
        have ht3 := mem_of_mem_tailsFor _ _ _ ht2
        obtain ⟨a, b, c2, habc⟩ := hpaneShape _ ht3
        have h2 : t = [c2] := by
          have h3 := congrArg (fun l : List Str => l.tail.tail) habc
          simpa using h3
        exact ⟨c2, h2⟩
      have hqmem := (by
        rw [h2w, hes] at hq
        exact (mem_children_foldl_deleteAt_single _ _ hnes hQshape q).mp hq)
      obtain ⟨hqes, hqnot⟩ := hqmem
      by_contra hnot
      apply hqnot
      apply mem_tailsFor
      apply mem_tailsFor
      have := collectStale_panes_intro (.dir csA) aS aW aP e0 f0 q he0 hdir0
        (by rw [← h1e]; exact hdot) (by rw [← h1e]; exact haS)
        (by rw [hds]; exact hwmemds) hdirf0
        (by rw [← h1e, ← h1w]; exact haW)
        (by rw [hes]; exact hqes) hdirq
        (by rw [← h1e, ← h1w]; exact hnot)
      exact this
    · -- NoEmptySessions
      intro e he hdir hdot
      obtain ⟨he3, hnotE⟩ := (hmem4 e).mp he
      intro hempty
      apply hnotE
      apply collectEmptySessions_intro _ e he3 hdir hdot
      rw [hempty]
      rfl

/-- C7: running the reconciliation pass (the get_or_create_window_dir loop
followed by cleanup_stale) a second time with the unchanged live-pane universe
and the tree and mapping tables produced by the first run changes nothing:
the tree and every mapping table come back identical, every
get_or_create_window_dir call reports changed false, and the second sweep
collects no stale session, window or pane directory and no
only-windows.json session. -/
theorem reconcile_idempotent (fs : Node) (panes : List Pane) (sm : SM)
    (hwf : Node.wf3 fs = true) (hcons : ConsistentPanes panes) :
    (reconcile (reconcile fs panes sm).fs panes (reconcile fs panes sm).sm).fs =
      (reconcile fs panes sm).fs ∧
    (reconcile (reconcile fs panes sm).fs panes (reconcile fs panes sm).sm).sm =
      (reconcile fs panes sm).sm ∧
    (∀ b ∈ (reconcile (reconcile fs panes sm).fs panes
      (reconcile fs panes sm).sm).changed, b = false) ∧
    collectStale (reconcile fs panes sm).fs (activeSessionDirs panes)
      (activeWindowDirs (reconcile fs panes sm).sm panes)
      (activePaneDirs (reconcile fs panes sm).sm panes) = ⟨[], [], []⟩ ∧
    collectEmptySessions (reconcile fs panes sm).fs = [] := by
  have hgn := keysNodupA_groupBySession panes
  have hgs := groups_sessions panes
  have hcons2 : ∀ g ∈ groupBySession panes, ∀ a ∈ g.2, ∀ b ∈ g.2,
      a.window_id = b.window_id → gwdnP a = gwdnP b := by
    intro g hg a ha b hb hw
    have hga := (hgs g hg).1 a ha
    have hgb := (hgs g hg).1 b hb
    have hab := hcons a hga.2 b hgb.2 (by rw [hga.1, hgb.1]) hw
    unfold gwdnP
    rw [hab.1, hab.2]
  set step1 := (groupBySession panes).foldl sessionStep (fs, sm, []) with hstep1def
  have hsmA : ∀ p ∈ panes, ∃ mp, getA step1.2.1 p.session = some mp ∧
      getA mp p.window_id = some (gwdnP p) := by
    intro p hp
    obtain ⟨ps, hgps, hpps⟩ := groups_cover panes p hp
    exact foldG_lookup _ _ p.session ps p hgn
      (getA_mem _ p.session ps hgps) hpps hcons2
  have hwfA : Node.wf3 step1.1 = true := foldG_wf3 _ _ hwf
  have hr1 : reconcile fs panes sm =
      ⟨(cleanup_stale step1.1 panes step1.2.1).1,
        (cleanup_stale step1.1 panes step1.2.1).2, step1.2.2⟩ := rfl
  set aS := activeSessionDirs panes with haSdef
  set aWA := activeWindowDirs step1.2.1 panes with haWAdef
  set aPA := activePaneDirs step1.2.1 panes with haPAdef
  set fs1 := removeEmptySessions
    (removeStale step1.1 (collectStale step1.1 aS aWA aPA)) with hfs1def
  set sm1 := pruneMappings panes step1.2.1 with hsm1def
  have hc1 : cleanup_stale step1.1 panes step1.2.1 = (fs1, sm1) := rfl
  have hclean := sweep_establishes step1.1 aS aWA aPA hwfA
  have hr1fs : (reconcile fs panes sm).fs = fs1 := by rw [hr1, hc1]
  have hr1sm : (reconcile fs panes sm).sm = sm1 := by rw [hr1, hc1]
  have hwdnA : ∀ p ∈ panes, windowDirNameFor step1.2.1 p = gwdnP p := by
    intro p hp
    obtain ⟨mp, h1, h2⟩ := hsmA p hp
    exact windowDirNameFor_eq _ p mp h1 h2
  have hsm1look : ∀ p ∈ panes, ∃ mp, getA sm1 p.session = some mp ∧
      getA mp p.window_id = some (gwdnP p) := by
    intro p hp
    obtain ⟨mp, h1, h2⟩ := hsmA p hp
    exact prune_live panes step1.2.1 p mp hp h1 _ h2
  have hwdn1 : ∀ p ∈ panes, windowDirNameFor sm1 p = gwdnP p := by
    intro p hp
    obtain ⟨mp, h1, h2⟩ := hsm1look p hp
    exact windowDirNameFor_eq _ p mp h1 h2
  have haWeq : activeWindowDirs sm1 panes = aWA := by
    rw [haWAdef]
    unfold activeWindowDirs
    apply map_congr_mem
    intro p hp
    rw [hwdn1 p hp, hwdnA p hp]
  have haPeq : activePaneDirs sm1 panes = aPA := by
    rw [haPAdef]
    unfold activePaneDirs
    apply map_congr_mem
    intro p hp
    rw [hwdn1 p hp, hwdnA p hp]
  have hr2groups : ∀ g ∈ groupBySession panes, ∃ mg, getA sm1 g.1 = some mg ∧
      ∀ p ∈ g.2, getA mg p.window_id = some (gwdnP p) := by
    intro g hg
    obtain ⟨hmembers, hnonempty⟩ := hgs g hg
    obtain ⟨p0, hp0⟩ : ∃ p0, p0 ∈ g.2 := by
      cases hgl : g.2 with
      | nil => exact absurd hgl hnonempty
      | cons x xs => exact ⟨x, by simp⟩
    obtain ⟨hs0, hpanes0⟩ := hmembers p0 hp0
    obtain ⟨mg, h1, _⟩ := hsm1look p0 hpanes0
    rw [hs0] at h1
    refine ⟨mg, h1, ?_⟩
    intro p hp
    obtain ⟨hsp, hpanesp⟩ := hmembers p hp
    obtain ⟨mg2, h1b, h2b⟩ := hsm1look p hpanesp
    rw [hsp] at h1b
    have hmg : mg2 = mg := Option.some.inj (h1b.symm.trans h1)
    rw [← hmg]
    exact h2b
  have hstep2all := foldG_noop (groupBySession panes) (fs1, sm1, []) hr2groups
  obtain ⟨h21, h22, h23⟩ := hstep2all
  have hclean2 : CleanTree fs1 aS (activeWindowDirs sm1 panes)
      (activePaneDirs sm1 panes) := by
    rw [haWeq, haPeq]
    exact hclean.1
  have hcleanup2 : cleanup_stale fs1 panes sm1 = (fs1, pruneMappings panes sm1) :=
    cleanup_stale_of_clean fs1 panes sm1 hclean2 hclean.2
  have hprune2 : pruneMappings panes sm1 = sm1 := by
    rw [hsm1def]
    exact prune_idem panes step1.2.1
  have hr2 : reconcile fs1 panes sm1 =
      ⟨fs1, sm1, ((groupBySession panes).foldl sessionStep (fs1, sm1, [])).2.2⟩ := by
    show (⟨(cleanup_stale ((groupBySession panes).foldl sessionStep (fs1, sm1, [])).1
        panes ((groupBySession panes).foldl sessionStep (fs1, sm1, [])).2.1).1,
      (cleanup_stale ((groupBySession panes).foldl sessionStep (fs1, sm1, [])).1
        panes ((groupBySession panes).foldl sessionStep (fs1, sm1, [])).2.1).2,
      ((groupBySession panes).foldl sessionStep (fs1, sm1, [])).2.2⟩ : CycleResult) = _
    rw [h21, h22, hcleanup2, hprune2]
  rw [hr1fs, hr1sm, hr2]
  refine ⟨rfl, rfl, ?_, ?_, ?_⟩
  · intro b hb
    rcases h23 b hb with h3 | h3
    · exact absurd h3 (List.not_mem_nil b)
    · exact h3
  · rw [haWeq, haPeq]
    exact collectStale_of_clean fs1 aS aWA aPA hclean.1
  · exact collectEmptySessions_of_noEmpty fs1 hclean.2

/-- Witness for C7: concrete evaluation on the fixture tree with one live pane
and an empty mapping table, discharging the wellformedness and consistency
hypotheses. -/
theorem reconcile_idempotent_witness :
    (reconcile (reconcile fsW2 [paneW] []).fs [paneW]
      (reconcile fsW2 [paneW] []).sm).fs = (reconcile fsW2 [paneW] []).fs ∧
    (reconcile (reconcile fsW2 [paneW] []).fs [paneW]
      (reconcile fsW2 [paneW] []).sm).sm = (reconcile fsW2 [paneW] []).sm ∧
    (∀ b ∈ (reconcile (reconcile fsW2 [paneW] []).fs [paneW]
      (reconcile fsW2 [paneW] []).sm).changed, b = false) ∧
    collectStale (reconcile fsW2 [paneW] []).fs (activeSessionDirs [paneW])
      (activeWindowDirs (reconcile fsW2 [paneW] []).sm [paneW])
      (activePaneDirs (reconcile fsW2 [paneW] []).sm [paneW]) = ⟨[], [], []⟩ ∧
    collectEmptySessions (reconcile fsW2 [paneW] []).fs = [] :=
  reconcile_idempotent fsW2 [paneW] [] (by decide)
    (by unfold ConsistentPanes; decide)
